import Mathlib

/-! go_tetris: the table registry (`types/tables.go`)

A shallow embedding of the table registry of the lobby server: the ordered
index of table ids (`sortedList`), a table (`Table`), the registry
(`Tables`) and its paginated listing (`Wrap`).

Conventions of the embedding

* Go `int` is 64 bits wide.  Ids and counters are `Int`; where the source
  multiplies or adds request parameters the result is wrapped by `wrapInt`.
* Locks are not modelled: every method body runs atomically under the lock
  it takes, so a method is a function from the state before to the state
  after.
* `*Table` pointers are addresses into an explicit heap (`Tables.heap`), so
  that the live map and the expired snapshot can share one table object.
* `time.Now().Unix()` is an explicit argument `now`.
* A Go panic (nil dereference, slice bounds) is an `Except.error`.
-/

namespace GoTetris

/-! ## Machine integers -/

/-- Two's complement wrap of a mathematical integer into the range of a
64-bit Go `int`. -/
def wrapInt (x : Int) : Int := (x + 2 ^ 63) % 2 ^ 64 - 2 ^ 63

/-- Largest value of a 64-bit Go `int`. -/
def maxInt : Int := 2 ^ 63 - 1

/-- Smallest value of a 64-bit Go `int`. -/
def minInt : Int := -(2 ^ 63)

/-! ## The ordered index: `sortedList` -/

/-- Go `sortedList`: the linked sequence `l` (a `container/list` of ints,
front first) and the flattened array `tableId`. -/
structure sortedList where
  l : List Int
  tableId : List Int
deriving DecidableEq, Repr

/-- Go `newSortList`. -/
def newSortList : sortedList := { l := [], tableId := [] }

/-- Go `(*sortedList).GetAll`. -/
def sortedList.GetAll (sl : sortedList) : List Int := sl.tableId

/-- The traversal of `Get`: walk from the front, return the value where the
running index is zero, `-1` when the sequence ends first. -/
def getLoop : List Int → Int → Int
  | [], _ => -1
  | v :: rest, index => if index = 0 then v else getLoop rest (index - 1)

/-- Go `(*sortedList).Get`. -/
def sortedList.Get (sl : sortedList) (index : Int) : Int :=
  if index < 0 then -1 else getLoop sl.l index

/-- The traversal of `Set`: the element met while the running index is zero
is overwritten; the traversal goes on to the end, the index only decreasing. -/
def setLoop : List Int → Int → Int → List Int
  | [], _, _ => []
  | v :: rest, index, val => (if index = 0 then val else v) :: setLoop rest (index - 1) val

/-- Go `(*sortedList).Set`. -/
def sortedList.Set (sl : sortedList) (index val : Int) : sortedList :=
  if index < 0 then sl else { sl with l := setLoop sl.l index val }

/-- Go `(*sortedList).Len`. -/
def sortedList.Len (sl : sortedList) : Int := sl.l.length

/-- Go `(*sortedList).Less`. -/
def sortedList.Less (sl : sortedList) (i j : Int) : Bool := decide (sl.Get i < sl.Get j)

/-- Go `(*sortedList).Swap`. -/
def sortedList.Swap (sl : sortedList) (i j : Int) : sortedList :=
  let iVal := sl.Get i
  let jVal := sl.Get j
  (sl.Set i jVal).Set j iVal

/-- Inner loop of the standard library's insertion sort, run through the
`sort.Interface` methods of the list:
`for j := i; j > 0 && data.Less(j, j-1); j-- { data.Swap(j, j-1) }`. -/
def insertionInner (sl : sortedList) : Nat → sortedList
  | 0 => sl
  | j + 1 =>
    if sl.Less ((j + 1 : Nat) : Int) (j : Int) then
      insertionInner (sl.Swap ((j + 1 : Nat) : Int) (j : Int)) j
    else sl

/-- Outer loop of the insertion sort: `for i := a + 1; i < b; i++`, here as
the `k` iterations that start at index `i`. -/
def insertionOuter (sl : sortedList) (i : Nat) : Nat → sortedList
  | 0 => sl
  | k + 1 => insertionOuter (insertionInner sl i) (i + 1) k

/-- Go `sort.Sort(data)` of the standard library on a `sortedList`: it
rearranges the sequence only through `Len`, `Less` and `Swap`, and leaves it
in ascending order of `Less`.  The library sorts short ranges by insertion
sort and long ones by pattern-defeating quicksort; for the strict order on
ints the outcome is the same sorted arrangement, and the embedding runs the
insertion sort on the whole range. -/
def sort_Sort (sl : sortedList) : sortedList :=
  insertionOuter sl 1 (sl.l.length - 1)

/-- The loop of `Sort` that rebuilds `tableId`: start from an empty slice
and append every element of the linked sequence, front to back. -/
def flatten (l : List Int) : List Int :=
  l.foldl (fun acc v => acc ++ [v]) []

/-- Go `(*sortedList).Sort`. -/
def sortedList.Sort (sl : sortedList) : sortedList :=
  let sl1 := sort_Sort sl
  { sl1 with tableId := flatten sl1.l }

/-- Go `(*sortedList).Add`: push to the front, then (deferred) `Sort`. -/
def sortedList.Add (sl : sortedList) (i : Int) : sortedList :=
  sortedList.Sort { sl with l := i :: sl.l }

/-- The loop of `Delete`: remove the first element equal to `val`. -/
def deleteLoop : List Int → Int → List Int
  | [], _ => []
  | v :: rest, val => if v = val then rest else v :: deleteLoop rest val

/-- Go `(*sortedList).Delete`: remove the first match, then (deferred) `Sort`. -/
def sortedList.Delete (sl : sortedList) (val : Int) : sortedList :=
  sortedList.Sort { sl with l := deleteLoop sl.l val }

/-! ## Collaborators of a table -/

/-- Modelled from the spec: the `User` type of the user cache, whose source
is outside the core.  A table holds references to users and reads nothing
of them but the uid. -/
structure User where
  uid : Int
deriving DecidableEq, Repr

/-- Modelled from the spec: the observer set `obs` of a table ("an unordered
set of observer references"), whose source is outside the core. -/
abbrev obs := List User

/-- Modelled from the spec: `NewObs`, the empty observer set. -/
def NewObs : obs := []

/-- Modelled from the spec: `obs.Join`, "always succeeds, adding to the
observer set". -/
def obs.Join (o : obs) (u : User) : obs := if u ∈ o then o else o ++ [u]

/-- Modelled from the spec: the simulation object `tetris.Game` (package
`tetris`, outside the core): the four construction parameters of `NewGame`
and whether it runs. -/
structure Game where
  height : Int
  width : Int
  numOfNextPiece : Int
  interval : Int
  started : Bool
deriving DecidableEq, Repr

/-- Modelled from the spec: the countdown ticker `timer.Timer` (package
`timer`, outside the core): its interval in milliseconds and whether it is
paused. -/
structure Timer where
  interval : Int
  paused : Bool
deriving DecidableEq, Repr

/-- Modelled from the spec: `timer.NewTimer`, a ticker that is paused until
`Start()` is called. -/
def NewTimer (interval : Int) : Timer := { interval := interval, paused := true }

/-- Go `gameOverStatus` with its three declared values. -/
inductive gameOverStatus where
  | GameoverNormal
  | Gameover1pQuit
  | Gameover2pQuit
deriving DecidableEq, Repr

/-- Go constant `statWaiting`. -/
def statWaiting : String := "等待"

/-- Go constant `statInGame`. -/
def statInGame : String := "已开始"

/-! ## A table -/

/-- Go `Table` without its lock.  An empty seat is `none` (a nil `*User`),
an absent simulation is `none` (a nil `*tetris.Game`); the two buffered
channels are the queues of values sent and not yet received. -/
structure Table where
  tId : Int
  tTitle : String
  tStat : String
  tBet : Int
  tHost : String
  obs : obs
  _1p : Option User
  _2p : Option User
  g1p : Option Game
  g2p : Option Game
  ready1p : Bool
  ready2p : Bool
  startTime : Int
  timer : Timer
  remainedSeconds : Int
  RemainedSecondsChan : List Int
  GameoverChan : List gameOverStatus
deriving DecidableEq, Repr

/-- Capacity of both channels of a table, `1<<3`. -/
def chanCap : Nat := 8

/-- Go `newTable`; `now` is `time.Now().Unix()`. -/
def newTable (id : Int) (title host : String) (bet : Int) (now : Int) : Table :=
  { tId := id
    tTitle := title
    tStat := statWaiting
    tBet := bet
    tHost := host
    obs := NewObs
    _1p := none
    _2p := none
    g1p := none
    g2p := none
    ready1p := false
    ready2p := false
    startTime := now
    timer := NewTimer 1000
    remainedSeconds := 120
    RemainedSecondsChan := []
    GameoverChan := [] }

/-- The three error values of the package. -/
inductive Err where
  | ErrExisted
  | ErrNotExist
  | ErrRoomFull
deriving DecidableEq, Repr

/-- The view built by `WrapTable`: one field per key of the Go map. -/
structure TableView where
  table_bet : Int
  table_id : Int
  table_host : String
  table_status : String
  table_title : String
  table_1p : Option User
  table_2p : Option User
  table_1p_ready : Bool
  table_2p_ready : Bool
  table_obs : obs
deriving DecidableEq, Repr

/-- Go `(*Table).WrapTable`. -/
def Table.WrapTable (t : Table) : TableView :=
  { table_bet := t.tBet
    table_id := t.tId
    table_host := t.tHost
    table_status := t.tStat
    table_title := t.tTitle
    table_1p := t._1p
    table_2p := t._2p
    table_1p_ready := t.ready1p
    table_2p_ready := t.ready2p
    table_obs := t.obs }

/-- Go `(*Table).ResetTable`. -/
def Table.ResetTable (t : Table) : Table :=
  { t with
    g1p := none
    g2p := none
    ready1p := false
    ready2p := false
    remainedSeconds := 120
    tStat := statWaiting }

/-- Go constant `maxNoPlayerDurationInSecs`. -/
def maxNoPlayerDurationInSecs : Int := 10

/-- Go constant `maxGameDurationInSecs`. -/
def maxGameDurationInSecs : Int := 300

/-- Go constant `maxIdleDurationInSecs`. -/
def maxIdleDurationInSecs : Int := 3600

/-- The local `tDur` of `Expire`: `time.Now().Unix() - t.startTime`, an
`int64` subtraction; `now` is `time.Now().Unix()`. -/
def Table.tDur (t : Table) (now : Int) : Int := wrapInt (now - t.startTime)

/-- Go `(*Table).Expire`; `now` is `time.Now().Unix()`. -/
def Table.Expire (t : Table) (now : Int) : Bool :=
  let tDur := t.tDur now
  if t._1p = none ∧ t._2p = none then
    decide (tDur > maxNoPlayerDurationInSecs)
  else if t.tStat = statInGame then
    decide (tDur > maxGameDurationInSecs)
  else
    decide (tDur > maxIdleDurationInSecs)

/-- Go `(*Table).IsStart`. -/
def Table.IsStart (t : Table) : Bool := decide (t.tStat = statInGame)

/-- Go `(*Table).JoinOB`. -/
def Table.JoinOB (t : Table) (u : User) : Table := { t with obs := t.obs.Join u }

/-- Go `(*Table).IsFull`. -/
def Table.IsFull (t : Table) : Bool := t._1p.isSome && t._2p.isSome

/-- Go `(*Table).Join`: the table afterwards and the returned error. -/
def Table.Join (t : Table) (u : User) : Table × Option Err :=
  if t._1p = none then ({ t with _1p := some u }, none)
  else if t._2p = none then ({ t with _2p := some u }, none)
  else (t, some Err.ErrRoomFull)

/-! ## The registry -/

/-- Address of a table object in the heap of the registry. -/
abbrev Ptr := Nat

/-- Go `map[int]*Table`: a finite map with unique keys from table ids to
table addresses. -/
abbrev IdMap := AList (fun _ : Int => Ptr)

instance instDecidableEqIdMap : DecidableEq IdMap := fun a b =>
  decidable_of_iff (a.entries = b.entries) ⟨AList.ext, fun h => congrArg _ h⟩

set_option linter.dupNamespace false in
/-- Go `Tables` without its lock: the id map `Tables`, the ordered index
`sortedTableId` and the expired snapshot `expires`, together with the heap
that holds the table objects the two maps point to. -/
structure Tables where
  heap : List Table
  Tables : IdMap
  sortedTableId : sortedList
  expires : IdMap
deriving DecidableEq

/-- Go `NewTables` (the expiry scan it launches is the step `findExpires`). -/
def NewTables : Tables :=
  { heap := [], Tables := ∅, sortedTableId := newSortList, expires := ∅ }

/-- Go `(*Tables).GetTableById`: the pointer stored under `id`, nil (`none`)
when there is none. -/
def Tables.GetTableById (ts : GoTetris.Tables) (id : Int) : Option Ptr := ts.Tables.lookup id

/-- Dereference of a table pointer. -/
def Tables.deref (ts : GoTetris.Tables) (p : Ptr) : Option Table := ts.heap[p]?

/-- The table object stored under `id` in the id map, if any. -/
def Tables.tableAt (ts : GoTetris.Tables) (id : Int) : Option Table :=
  (ts.Tables.lookup id).bind ts.deref

/-- Go `(*Tables).GetExpireTables`. -/
def Tables.GetExpireTables (ts : GoTetris.Tables) : IdMap := ts.expires

/-- Go `(*Tables).ReleaseExpireTable`. -/
def Tables.ReleaseExpireTable (ts : GoTetris.Tables) (tid : Int) : GoTetris.Tables :=
  { ts with
    Tables := ts.Tables.erase tid
    expires := ts.expires.erase tid
    sortedTableId := ts.sortedTableId.Delete tid }

/-- Go `(*Tables).DelTable`. -/
def Tables.DelTable (ts : GoTetris.Tables) (id : Int) : GoTetris.Tables :=
  { ts with
    Tables := ts.Tables.erase id
    sortedTableId := ts.sortedTableId.Delete id }

/-- Go `(*Tables).NewTable`: the registry afterwards and the returned error.
The new table object is allocated at the next free address of the heap. -/
def Tables.NewTable (ts : GoTetris.Tables) (id : Int) (title host : String) (bet : Int) (now : Int) :
    GoTetris.Tables × Option Err :=
  if (ts.Tables.lookup id).isSome then (ts, some Err.ErrExisted)
  else
    ({ ts with
       heap := ts.heap ++ [newTable id title host bet now]
       Tables := ts.Tables.insert id ts.heap.length
       sortedTableId := ts.sortedTableId.Add id }, none)

/-- A Go run-time panic, or a loop that never exits. -/
inductive Fault where
  | nilDereference
  | sliceBoundsOutOfRange
  | nonTermination
deriving DecidableEq, Repr

instance instDecidableEqExcept {ε α : Type} [DecidableEq ε] [DecidableEq α] :
    DecidableEq (Except ε α)
  | .ok a, .ok b =>
    if h : a = b then isTrue (congrArg Except.ok h)
    else isFalse (fun h2 => h (Except.ok.inj h2))
  | .error a, .error b =>
    if h : a = b then isTrue (congrArg Except.error h)
    else isFalse (fun h2 => h (Except.error.inj h2))
  | .ok _, .error _ => isFalse (fun h => Except.noConfusion h)
  | .error _, .ok _ => isFalse (fun h => Except.noConfusion h)

/-- Go `(*Tables).JoinTable`: the registry afterwards and the returned
error.  A method call on a nil table pointer panics. -/
def Tables.JoinTable (ts : GoTetris.Tables) (id : Int) (u : User) (isOb : Bool) :
    Except Fault (GoTetris.Tables × Option Err) :=
  match ts.Tables.lookup id with
  | none => .ok (ts, some Err.ErrNotExist)
  | some p =>
    match ts.deref p with
    | none => .error Fault.nilDereference
    | some t =>
      if isOb then .ok ({ ts with heap := ts.heap.set p (t.JoinOB u) }, none)
      else .ok ({ ts with heap := ts.heap.set p (t.Join u).1 }, (t.Join u).2)

/-- Go `findExpires`, one pass of the loop body over the id map:
`for tid, t := range ts.Tables { if t.Expire() { ts.expires[tid] = t } }`. -/
def expireScan (heap : List Table) (now : Int) :
    List (Sigma fun _ : Int => Ptr) → IdMap → Except Fault IdMap
  | [], expires => .ok expires
  | ⟨tid, p⟩ :: rest, expires =>
    match heap[p]? with
    | none => .error Fault.nilDereference
    | some t => expireScan heap now rest (if t.Expire now then expires.insert tid p else expires)

/-- Go `findExpires`: one iteration of its endless loop at time `now`. -/
def findExpires (ts : Tables) (now : Int) : Except Fault Tables :=
  match expireScan ts.heap now ts.Tables.entries ts.expires with
  | .error e => .error e
  | .ok ex => .ok { ts with expires := ex }

/-! ## Paginated listing -/

/-- Go constant `defaultTableInPage`. -/
def defaultTableInPage : Int := 9

/-- The filter loop of `Wrap`: keep the ids whose table is not started. -/
def filterWaitIds (ts : Tables) : List Int → Except Fault (List Int)
  | [] => .ok []
  | tid :: rest =>
    match ts.tableAt tid with
    | none => .error Fault.nilDereference
    | some t =>
      match filterWaitIds ts rest with
      | .error e => .error e
      | .ok ids => .ok (if !t.IsStart then tid :: ids else ids)

/-- The loop `for start < end { start += numOfTableInPage }` of `Wrap`, with
the wrapping addition of Go; `none` when the fuel runs out. -/
def clampLoop (e n : Int) : Nat → Int → Option Int
  | 0, _ => none
  | fuel + 1, start =>
    if start < e then clampLoop e n fuel (wrapInt (start + n)) else some start

/-- Number of values of a 64-bit `int`: the loop of `Wrap` is deterministic
in `start`, so if it has not left after this many rounds it never does. -/
def loopFuel : Nat := 2 ^ 64

/-- The window `[start, end]` that `Wrap` computes for `l > 0` ids from the
raw page size and page number: normalisation of the two arguments, the
products, the `switch` and the clamp of a negative `start`. -/
def wrapWindow (l numOfTableInPage pageNum : Int) : Except Fault (Int × Int) :=
  let numOfTableInPage := if numOfTableInPage ≤ 0 then defaultTableInPage else numOfTableInPage
  let pageNum := if pageNum ≤ 0 then 1 else pageNum
  let start := wrapInt ((pageNum - 1) * numOfTableInPage)
  let «end» := wrapInt (pageNum * numOfTableInPage - 1)
  let l := l - 1
  let clamp (se : Int × Int) : Int × Int := (if se.1 < 0 then 0 else se.1, se.2)
  if l ≤ start then
    match clampLoop l numOfTableInPage loopFuel 0 with
    | none => .error Fault.nonTermination
    | some s => .ok (clamp (wrapInt (s - numOfTableInPage), l))
  else if l ≤ «end» then .ok (clamp (start, l))
  else .ok (clamp (start, «end»))

/-- Go slice expression `ids[start:hi]`: it panics unless
`0 <= start <= hi <= cap(ids)`.  The capacity of the slice is not part of the
embedding; the upper bound is checked against the length, which `Wrap` never
exceeds (`wrapWindow_end_le`). -/
def sliceIds (ids : List Int) (start hi : Int) : Except Fault (List Int) :=
  if 0 ≤ start ∧ start ≤ hi ∧ hi ≤ ids.length then
    .ok ((ids.drop start.toNat).take (hi - start).toNat)
  else .error Fault.sliceBoundsOutOfRange

/-- The result loop of `Wrap`: the view of the table stored under each id. -/
def wrapViews (ts : Tables) : List Int → Except Fault (List TableView)
  | [] => .ok []
  | index :: rest =>
    match ts.tableAt index with
    | none => .error Fault.nilDereference
    | some t =>
      match wrapViews ts rest with
      | .error e => .error e
      | .ok vs => .ok (t.WrapTable :: vs)

/-- The first part of `Wrap`: the ids of the ordered index, restricted to
the tables that are not started when `filterWait` is set. -/
def Tables.wrapIds (ts : GoTetris.Tables) (filterWait : Bool) : Except Fault (List Int) :=
  if filterWait then filterWaitIds ts ts.sortedTableId.GetAll
  else .ok ts.sortedTableId.GetAll

/-- Go `(*Tables).Wrap`.  A nil result and an empty result are both `[]`. -/
def Tables.Wrap (ts : GoTetris.Tables) (numOfTableInPage pageNum : Int) (filterWait : Bool) :
    Except Fault (List TableView) :=
  match ts.wrapIds filterWait with
  | .error e => .error e
  | .ok tableIds =>
    if tableIds.length = 0 then .ok []
    else
      match wrapWindow tableIds.length numOfTableInPage pageNum with
      | .error e => .error e
      | .ok (start, «end») =>
        match sliceIds tableIds start (wrapInt («end» + 1)) with
        | .error e => .error e
        | .ok window => wrapViews ts window

/-! ## Calls on the registry and its invariant -/

/-- A call of one of the three registry methods that add or remove a table. -/
inductive RegistryCall where
  | NewTable (id : Int) (title host : String) (bet : Int) (now : Int)
  | DelTable (id : Int)
  | ReleaseExpireTable (tid : Int)
deriving DecidableEq, Repr

/-- The registry after one call (the error of `NewTable` is dropped). -/
def RegistryCall.apply (ts : Tables) : RegistryCall → Tables
  | .NewTable id title host bet now => (ts.NewTable id title host bet now).1
  | .DelTable id => ts.DelTable id
  | .ReleaseExpireTable tid => ts.ReleaseExpireTable tid

/-- The registry after a sequence of calls, first call first. -/
def runCalls (ts : Tables) (calls : List RegistryCall) : Tables :=
  calls.foldl RegistryCall.apply ts

/-- The ordered index agrees with the id map: the flattened array is the
linked sequence, strictly ascending, and holds exactly the keys of the map. -/
def IndexInv (ts : Tables) : Prop :=
  ts.sortedTableId.tableId = ts.sortedTableId.l ∧
  List.Sorted (· < ·) ts.sortedTableId.l ∧
  ∀ id : Int, id ∈ ts.sortedTableId.l ↔ id ∈ ts.Tables

/-- Every pointer stored in the id map is the address of a table object. -/
def HeapInv (ts : Tables) : Prop :=
  ∀ (id : Int) (p : Ptr), ts.Tables.lookup id = some p → p < ts.heap.length

/-! ## Example registries -/

/-- The calls `NewTable(1, …)`, …, `NewTable(k, …)`, in that order, at time 1000. -/
def exampleCalls (k : Nat) : List RegistryCall :=
  (List.range k).map fun i => RegistryCall.NewTable ((i : Int) + 1) "t" "10.0.0.1:9000" 0 1000

/-- The registry with the tables of ids `1..k`, built by `NewTable` calls on
a fresh registry. -/
def exampleRegistry (k : Nat) : Tables := runCalls NewTables (exampleCalls k)

/-- A waiting table created at time 100 with one player in seat 1. -/
def exampleWaitingTable : Table :=
  { newTable 7 "t" "10.0.0.1:9000" 5 100 with _1p := some (User.mk 3) }

/-! ## Calls on the ordered index -/

/-- A mutating call on the ordered index. -/
inductive IndexCall where
  | Add (i : Int)
  | Delete (val : Int)
deriving DecidableEq, Repr

/-- The ordered index after one call. -/
def IndexCall.apply (sl : sortedList) : IndexCall → sortedList
  | .Add i => sl.Add i
  | .Delete val => sl.Delete val

/-- The ordered index after a sequence of calls, first call first. -/
def runIndexCalls (sl : sortedList) (calls : List IndexCall) : sortedList :=
  calls.foldl IndexCall.apply sl

/-- The multiset of ids the specification associates with a sequence of
calls: `Add(id)` inserts one occurrence of the id, `Delete(id)` removes one
occurrence if there is one and nothing otherwise. -/
def specBag (m : Multiset Int) : List IndexCall → Multiset Int
  | [] => m
  | .Add i :: calls => specBag (i ::ₘ m) calls
  | .Delete val :: calls => specBag (m.erase val) calls

/-! ## Seats, readiness and observers of a table -/

/-- Modelled from the spec: `(*User).GetUid`, whose source is outside the
core.  Called on a seat: the uid of the occupant, and the sentinel `nilUid`
for an empty seat (a nil `*User`). -/
def GetUid (nilUid : Int) : Option User → Int
  | none => nilUid
  | some u => u.uid

/-- Modelled from the spec: `obs.Quit`, "removes uid from observers if
present". -/
def obs.Quit (o : obs) (uid : Int) : obs := o.filter (fun u => decide (u.uid ≠ uid))

/-- Modelled from the spec: `obs.QuitAll`, which empties the observer set. -/
def obs.QuitAll (_ : obs) : obs := []

/-- Go `(*Table).SwitchReady`; the cases of the `switch` are tried in
order, `nilUid` is what `GetUid` gives for an empty seat. -/
def Table.SwitchReady (nilUid : Int) (t : Table) (uid : Int) : Table :=
  if uid < 0 then t
  else if uid = GetUid nilUid t._1p then { t with ready1p := !t.ready1p }
  else if uid = GetUid nilUid t._2p then { t with ready2p := !t.ready2p }
  else t

/-- Go `(*Table).ShouldStart`. -/
def Table.ShouldStart (t : Table) : Bool := t.ready1p && t.ready2p

/-- Go `(*Table).Start`; `now` is `time.Now().Unix()`. -/
def Table.Start (t : Table) (now : Int) : Table :=
  { t with startTime := now, tStat := statInGame }

/-- Go `(*Table).Stop`; `now` is `time.Now().Unix()`. -/
def Table.Stop (t : Table) (now : Int) : Table :=
  { t with ready1p := false, ready2p := false, tStat := statWaiting, startTime := now }

/-- Go `(*Table).Quit`; the cases of the `switch` are tried in order,
`nilUid` is what `GetUid` gives for an empty seat. -/
def Table.Quit (nilUid : Int) (t : Table) (uid : Int) : Table :=
  if uid < 0 then t
  else if uid = GetUid nilUid t._1p then { t with _1p := none, ready1p := false }
  else if uid = GetUid nilUid t._2p then { t with _2p := none, ready2p := false }
  else { t with obs := t.obs.Quit uid }

/-- Go `(*Table).QuitAllObs`. -/
def Table.QuitAllObs (t : Table) : Table := { t with obs := t.obs.QuitAll }

/-- A mutating call on a table. -/
inductive TableCall where
  | Join (u : User)
  | JoinOB (u : User)
  | Quit (uid : Int)
  | SwitchReady (uid : Int)
  | Start (now : Int)
  | Stop (now : Int)
  | ResetTable
  | QuitAllObs
deriving DecidableEq, Repr

/-- The table after one call. -/
def TableCall.apply (nilUid : Int) (t : Table) : TableCall → Table
  | .Join u => (t.Join u).1
  | .JoinOB u => t.JoinOB u
  | .Quit uid => t.Quit nilUid uid
  | .SwitchReady uid => t.SwitchReady nilUid uid
  | .Start now => t.Start now
  | .Stop now => t.Stop now
  | .ResetTable => t.ResetTable
  | .QuitAllObs => t.QuitAllObs

/-- The table after a sequence of calls, first call first. -/
def runTableCalls (nilUid : Int) (t : Table) (calls : List TableCall) : Table :=
  calls.foldl (TableCall.apply nilUid) t

/-- A readiness flag is set only for an occupied seat. -/
def ReadyInv (t : Table) : Prop :=
  (t.ready1p = true → t._1p.isSome = true) ∧ (t.ready2p = true → t._2p.isSome = true)

/-- A table with both seats taken by users 7 and 8, user 9 observing, and
seat 1 ready. -/
def exampleSeatedTable : Table :=
  { newTable 1 "t" "h:1" 0 100 with
    _1p := some ⟨7⟩, _2p := some ⟨8⟩, obs := [⟨9⟩], ready1p := true }

/-! ## The maintenance loop and steps of the registry -/

/-- One release of the maintenance loop: the id, the pointer found under it
in the id map (the table that is released) and the pointer the expired
snapshot held under it. -/
structure Release where
  tid : Int
  released : Ptr
  recorded : Option Ptr
deriving DecidableEq, Repr

/-- Go `releaseExpires` of the hall server, the body of its inner loop for
one id of the expired snapshot; the hall `normalHall` is the registry.  The
calls to the game server stub and to the user cache read the table and do
not touch the registry. -/
def releaseExpiresBody (ts : Tables) (tid : Int) : Except Fault (Tables × Option Release) :=
  match ts.GetTableById tid with
  | none => .ok (ts, none)
  | some tt =>
    match ts.deref tt with
    | none => .error Fault.nilDereference
    | some _ =>
      .ok (ts.ReleaseExpireTable tid,
        some { tid := tid, released := tt, recorded := ts.GetExpireTables.lookup tid })

/-- The inner loop of `releaseExpires` over the ids of the snapshot. -/
def releaseExpiresLoop : List Int → Tables → List Release → Except Fault (Tables × List Release)
  | [], ts, log => .ok (ts, log)
  | tid :: rest, ts, log =>
    match releaseExpiresBody ts tid with
    | .error e => .error e
    | .ok (ts1, none) => releaseExpiresLoop rest ts1 log
    | .ok (ts1, some r) => releaseExpiresLoop rest ts1 (log ++ [r])

/-- Go `releaseExpires`: one iteration of its endless loop, with the
releases it made appended to `log`. -/
def releaseExpires (ts : Tables) (log : List Release) : Except Fault (Tables × List Release) :=
  releaseExpiresLoop ts.GetExpireTables.keys ts log

/-- A step of the registry: a call of one of its methods, one pass of the
expiry scan at the given time, or one iteration of the maintenance loop. -/
inductive RegistryStep where
  | NewTable (id : Int) (title host : String) (bet : Int) (now : Int)
  | DelTable (id : Int)
  | JoinTable (id : Int) (u : User) (isOb : Bool)
  | ReleaseExpireTable (tid : Int)
  | findExpires (now : Int)
  | releaseExpires
deriving DecidableEq, Repr

/-- The registry and the log of releases after one step (the errors that
`NewTable` and `JoinTable` return are dropped). -/
def RegistryStep.apply (s : Tables × List Release) :
    RegistryStep → Except Fault (Tables × List Release)
  | .NewTable id title host bet now => .ok ((s.1.NewTable id title host bet now).1, s.2)
  | .DelTable id => .ok (s.1.DelTable id, s.2)
  | .JoinTable id u isOb =>
    match s.1.JoinTable id u isOb with
    | .error e => .error e
    | .ok r => .ok (r.1, s.2)
  | .ReleaseExpireTable tid => .ok (s.1.ReleaseExpireTable tid, s.2)
  | .findExpires now =>
    match GoTetris.findExpires s.1 now with
    | .error e => .error e
    | .ok ts => .ok (ts, s.2)
  | .releaseExpires => GoTetris.releaseExpires s.1 s.2

/-- The registry and the log of releases after a sequence of steps, first
step first; a fault ends the run. -/
def runSteps (s : Tables × List Release) : List RegistryStep →
    Except Fault (Tables × List Release)
  | [] => .ok s
  | c :: rest =>
    match c.apply s with
    | .error e => .error e
    | .ok s1 => runSteps s1 rest

/-- The keys of the expired snapshot are keys of the id map. -/
def ExpiredInv (ts : Tables) : Prop := ∀ id : Int, id ∈ ts.expires → id ∈ ts.Tables

/-- A table is created under id 1 at time 0, found expired by the scan at
time 11 (it is empty for more than 10 seconds), and deleted by `DelTable`. -/
def staleEntrySteps : List RegistryStep :=
  [.NewTable 1 "t" "10.0.0.1:9000" 0 0, .findExpires 11, .DelTable 1]

/-- The steps of `staleEntrySteps`, then a new table under the same id 1 at
time 12 and one iteration of the maintenance loop. -/
def staleReleaseSteps : List RegistryStep :=
  staleEntrySteps ++ [.NewTable 1 "t2" "10.0.0.1:9000" 0 12, .releaseExpires]

/-! ## The countdown of a table -/

/-- A send on a buffered channel of capacity `chanCap`, the channel being
the queue of values sent and not yet received: the value is appended when
there is room; `none` when the queue is full, where the Go statement
`ch <- v` blocks until a receiver takes a value. -/
def chanSend {α : Type} (ch : List α) (v : α) : Option (List α) :=
  if ch.length < chanCap then some (ch ++ [v]) else none

/-- The function literal in the loop of `UpdateTimer`, run with the table
lock held: the table afterwards and the returned boolean; `none` when the
send blocks, in which case the literal does not return and the lock stays
held. -/
def Table.countdownStep (t : Table) : Option (Table × Bool) :=
  let t1 : Table := { t with remainedSeconds := wrapInt (t.remainedSeconds - 1) }
  if t1.remainedSeconds ≤ 0 then
    match chanSend t1.GameoverChan gameOverStatus.GameoverNormal with
    | none => none
    | some ch => some ({ t1 with GameoverChan := ch }, true)
  else
    match chanSend t1.RemainedSecondsChan t1.remainedSeconds with
    | none => none
    | some ch => some ({ t1 with RemainedSecondsChan := ch }, false)

/-- How a run of `UpdateTimer` stands: it returned after the game-over
signal, returned because the ticker is paused, is blocked for ever in a
send, or has used up the rounds it was given. -/
inductive CountdownStatus where
  | finished
  | paused
  | blocked
  | outOfFuel
deriving DecidableEq, Repr

/-- The receivers of the two channels of a table, as the countdown meets
them: `tick k` and `over k` values are taken from the front of the two
queues while the countdown waits for its tick in round `k`; `lateTick k`
and `lateOver k` values are taken while the send of round `k` waits on a
full channel (with 0 no receiver comes and the send waits for ever). -/
structure Receivers where
  tick : Nat → Nat
  over : Nat → Nat
  lateTick : Nat → Nat
  lateOver : Nat → Nat

/-- A run of `UpdateTimer`: how it stands, the table, the number of ticks
waited for, and the values the receivers have taken from the tick channel
and from the game-over channel, in the order received. -/
structure Countdown where
  status : CountdownStatus
  table : Table
  ticks : Nat
  gotTicks : List Int
  gotOvers : List gameOverStatus
deriving DecidableEq, Repr

/-- Go `(*Table).UpdateTimer`, at most `fuel` rounds of its loop after `k`
ticks, the receivers having taken `gt` and `go` so far.  `Wait()` on a
ticker that is not paused returns at the next tick.  A send that finds its
channel full waits, after the decrement and with the lock held, until the
receivers have taken values; it completes if there is room then, and
otherwise the run stays blocked. -/
def Table.UpdateTimer (rc : Receivers) :
    Nat → Nat → Table → List Int → List gameOverStatus → Countdown
  | 0, k, t, gt, go =>
    { status := .outOfFuel, table := t, ticks := k, gotTicks := gt, gotOvers := go }
  | fuel + 1, k, t, gt, go =>
    if t.timer.paused then
      { status := .paused, table := t, ticks := k, gotTicks := gt, gotOvers := go }
    else
      let t1 : Table := { t with
        RemainedSecondsChan := t.RemainedSecondsChan.drop (rc.tick k)
        GameoverChan := t.GameoverChan.drop (rc.over k) }
      let gt1 := gt ++ t.RemainedSecondsChan.take (rc.tick k)
      let go1 := go ++ t.GameoverChan.take (rc.over k)
      match t1.countdownStep with
      | some (t2, true) =>
        { status := .finished, table := t2, ticks := k + 1, gotTicks := gt1, gotOvers := go1 }
      | some (t2, false) => Table.UpdateTimer rc fuel (k + 1) t2 gt1 go1
      | none =>
        let t2 : Table := { t1 with remainedSeconds := wrapInt (t1.remainedSeconds - 1) }
        if t2.remainedSeconds ≤ 0 then
          let t3 : Table := { t2 with GameoverChan := t2.GameoverChan.drop (rc.lateOver k) }
          let go3 := go1 ++ t2.GameoverChan.take (rc.lateOver k)
          match chanSend t3.GameoverChan gameOverStatus.GameoverNormal with
          | none =>
            { status := .blocked, table := t3, ticks := k + 1, gotTicks := gt1, gotOvers := go3 }
          | some ch =>
            { status := .finished, table := { t3 with GameoverChan := ch }, ticks := k + 1,
              gotTicks := gt1, gotOvers := go3 }
        else
          let t3 : Table := { t2 with
            RemainedSecondsChan := t2.RemainedSecondsChan.drop (rc.lateTick k) }
          let gt3 := gt1 ++ t2.RemainedSecondsChan.take (rc.lateTick k)
          match chanSend t3.RemainedSecondsChan t3.remainedSeconds with
          | none =>
            { status := .blocked, table := t3, ticks := k + 1, gotTicks := gt3, gotOvers := go1 }
          | some ch =>
            Table.UpdateTimer rc fuel (k + 1) { t3 with RemainedSecondsChan := ch } gt3 go1

/-- The first `j` values of the countdown from `r`: `r-1, r-2, ..., r-j`. -/
def countdownValues (r j : Nat) : List Int :=
  (List.range j).map fun i : Nat => (r : Int) - 1 - (i : Int)

/-- Receivers that take one tick value in every round and come to no
blocked send. -/
def exampleReceivers : Receivers :=
  { tick := fun _ => 1, over := fun _ => 0, lateTick := fun _ => 0, lateOver := fun _ => 0 }

/-- No receiver at all. -/
def noReceivers : Receivers :=
  { tick := fun _ => 0, over := fun _ => 0, lateTick := fun _ => 0, lateOver := fun _ => 0 }

/-- Receivers that take nothing until a send waits on the full tick channel
and then take three values. -/
def lateReceivers : Receivers :=
  { tick := fun _ => 0, over := fun _ => 0, lateTick := fun _ => 3, lateOver := fun _ => 0 }

/-- A new table whose ticker has been started. -/
def exampleRunningTable : Table :=
  { newTable 1 "t" "10.0.0.1:9000" 0 100 with timer := { interval := 1000, paused := false } }

/-- A running table with 5 seconds left whose tick channel holds 8 values
that no receiver has taken. -/
def exampleFullQueueTable : Table :=
  { exampleRunningTable with
    remainedSeconds := 5, RemainedSecondsChan := [13, 12, 11, 10, 9, 8, 7, 6] }

/-! ## The shutdown sequence of the hall server -/

/-- The statement `notify` of `graceful.go` executes next. -/
inductive NotifyPc where
  | waitSignal
  | setPubServerEnable
  | callDeactivateAll
  | pollNumOfGS
  | setAllGSReleased
  | pollProgCanExit
  | exiting
  | exited
deriving DecidableEq, Repr

/-- What `notify` has done so far that others can see: a call of
`clients.DeactivateAll()` with the value `pubServerEnable` had then, a call
of `clients.NumOfGS()` with the number it returned, a read of `progCanExit`
with the value read and the value `allGSReleased` had then, and the call of
`os.Exit`. -/
inductive ShutdownEvent where
  | deactivateAll (pubServerEnable : Bool)
  | numOfGS (n : Int)
  | readProgCanExit (value : Bool) (allGSReleased : Bool)
  | exit (code : Int)
deriving DecidableEq, Repr

/-- The flags of `graceful.go`, the position of `notify`, and what it has
done so far, first event first. -/
structure Shutdown where
  pc : NotifyPc
  pubServerEnable : Bool
  allGSReleased : Bool
  progCanExit : Bool
  log : List ShutdownEvent
deriving DecidableEq, Repr

/-- What happens next: the signal arrives; `notify` executes its next
statement, the fleet collaborator answering a call with `deactivateFailed`
and `numOfGS`; or the rest of the program writes `progCanExit`. -/
inductive ShutdownInput where
  | signal
  | notify (deactivateFailed : Bool) (numOfGS : Int)
  | background (progCanExit : Bool)
deriving DecidableEq, Repr

/-- The state at program start: `allGSReleased = false`,
`progCanExit = false`, and `notify` waiting for the signal. -/
def Shutdown.init (pubServerEnable : Bool) : Shutdown :=
  { pc := .waitSignal, pubServerEnable := pubServerEnable, allGSReleased := false,
    progCanExit := false, log := [] }

/-- One step of the shutdown sequence.  Go `notify`: wait for the signal;
`pubServerEnable = false`; `clients.DeactivateAll()` (an error is logged and
ignored); `for clients.NumOfGS() > 0 {}`; `allGSReleased = true`;
`for !progCanExit {}`; log, sleep, `os.Exit(1)`. -/
def Shutdown.step (s : Shutdown) : ShutdownInput → Shutdown
  | .signal =>
    match s.pc with
    | .waitSignal => { s with pc := .setPubServerEnable }
    | _ => s
  | .background v => { s with progCanExit := v }
  | .notify _ n =>
    match s.pc with
    | .waitSignal => s
    | .setPubServerEnable => { s with pubServerEnable := false, pc := .callDeactivateAll }
    | .callDeactivateAll =>
      { s with pc := .pollNumOfGS, log := s.log ++ [.deactivateAll s.pubServerEnable] }
    | .pollNumOfGS =>
      { s with
        pc := if n > 0 then .pollNumOfGS else .setAllGSReleased
        log := s.log ++ [.numOfGS n] }
    | .setAllGSReleased => { s with allGSReleased := true, pc := .pollProgCanExit }
    | .pollProgCanExit =>
      { s with
        pc := if !s.progCanExit then .pollProgCanExit else .exiting
        log := s.log ++ [.readProgCanExit s.progCanExit s.allGSReleased] }
    | .exiting => { s with pc := .exited, log := s.log ++ [.exit 1] }
    | .exited => s

/-- The state after a sequence of steps, first step first. -/
def Shutdown.run (s : Shutdown) (inputs : List ShutdownInput) : Shutdown :=
  inputs.foldl Shutdown.step s

/-- Position of a statement in `notify`. -/
def NotifyPc.rank : NotifyPc → Nat
  | .waitSignal => 0
  | .setPubServerEnable => 1
  | .callDeactivateAll => 2
  | .pollNumOfGS => 3
  | .setAllGSReleased => 4
  | .pollProgCanExit => 5
  | .exiting => 6
  | .exited => 7

/-- The order of the shutdown sequence, as a property of one state. -/
def ShutdownInv (s : Shutdown) : Prop :=
  (2 ≤ s.pc.rank → s.pubServerEnable = false) ∧
  (s.pc.rank ≤ 2 → s.log = []) ∧
  (∀ b, ShutdownEvent.deactivateAll b ∈ s.log → b = false) ∧
  (4 ≤ s.pc.rank → ∃ n : Int, n ≤ 0 ∧ ShutdownEvent.numOfGS n ∈ s.log) ∧
  (s.allGSReleased = true ↔ 5 ≤ s.pc.rank) ∧
  (∀ v r, ShutdownEvent.readProgCanExit v r ∈ s.log → r = true ∧ s.allGSReleased = true) ∧
  (6 ≤ s.pc.rank → ShutdownEvent.readProgCanExit true true ∈ s.log) ∧
  (∀ c, ShutdownEvent.exit c ∈ s.log → s.pc = .exited) ∧
  (s.pc = .exited → ShutdownEvent.exit 1 ∈ s.log)

/-- A complete shutdown: the signal, two game servers that unregister one
after the other, and the rest of the program allowing the exit after one
poll. -/
def exampleShutdown : List ShutdownInput :=
  [.signal, .notify false 0, .notify true 0, .notify false 2, .notify false 1,
   .notify false 0, .notify false 0, .notify false 0, .background true, .notify false 0,
   .notify false 0]

/-! # Theorems -/

/-! ## The ordered index -/

theorem flatten_eq (l : List Int) : flatten l = l := by
  have h : ∀ (l acc : List Int), l.foldl (fun acc v => acc ++ [v]) acc = acc ++ l := by
    intro l
    induction l with
    | nil => intro acc; simp
    | cons a l ih => intro acc; simp [ih]
  simpa [flatten] using h l []

theorem deleteLoop_eq_erase (l : List Int) (val : Int) : deleteLoop l val = l.erase val := by
  induction l with
  | nil => rfl
  | cons a l ih =>
    by_cases h : a = val
    · simp [deleteLoop, h]
    · simp [deleteLoop, h, ih, List.erase_cons_tail]

theorem getLoop_append (pre l : List Int) (i : Int) (hi : 0 ≤ i) :
    getLoop (pre ++ l) ((pre.length : Int) + i) = getLoop l i := by
  induction pre with
  | nil => simp
  | cons a pre ih =>
    have hne : ((pre.length : Int) + 1 + i) ≠ 0 := by omega
    simp only [List.cons_append, List.length_cons, Nat.cast_add, Nat.cast_one, getLoop, hne,
      if_false]
    rw [show (pre.length : Int) + 1 + i - 1 = (pre.length : Int) + i by ring]
    exact ih

theorem setLoop_neg (l : List Int) (i val : Int) (hi : i < 0) : setLoop l i val = l := by
  induction l generalizing i with
  | nil => rfl
  | cons a l ih =>
    have hne : i ≠ 0 := by omega
    simp only [setLoop, hne, if_false]
    rw [ih (i - 1) (by omega)]

theorem setLoop_append (pre l : List Int) (i val : Int) (hi : 0 ≤ i) :
    setLoop (pre ++ l) ((pre.length : Int) + i) val = pre ++ setLoop l i val := by
  induction pre with
  | nil => simp
  | cons a pre ih =>
    have hne : ((pre.length : Int) + 1 + i) ≠ 0 := by omega
    simp only [List.cons_append, List.length_cons, Nat.cast_add, Nat.cast_one, setLoop, hne,
      if_false]
    rw [show (pre.length : Int) + 1 + i - 1 = (pre.length : Int) + i by ring]
    exact congrArg _ ih

/-- `Less(j+1, j)` at the boundary of a prefix of length `j` compares the two
neighbours. -/
theorem Less_adjacent (pre suf t : List Int) (y x : Int) :
    (sortedList.mk (pre ++ y :: x :: suf) t).Less ((pre.length + 1 : Nat) : Int) (pre.length : Int)
      = decide (x < y) := by
  have h1 : getLoop (pre ++ y :: x :: suf) ((pre.length : Int) + 1) = x := by
    rw [getLoop_append _ _ _ (by omega)]; simp [getLoop]
  have h0 : getLoop (pre ++ y :: x :: suf) ((pre.length : Int) + 0) = y := by
    rw [getLoop_append _ _ _ (by omega)]; simp [getLoop]
  have hn1 : ¬ ((pre.length : Int) + 1 < 0) := by omega
  have hn0 : ¬ ((pre.length : Int) < 0) := by omega
  simp only [add_zero] at h0
  simp [sortedList.Less, sortedList.Get, hn1, hn0, h1, h0]

/-- `Swap(j+1, j)` at the boundary of a prefix of length `j` exchanges the
two neighbours and nothing else. -/
theorem Swap_adjacent (pre suf t : List Int) (y x : Int) :
    (sortedList.mk (pre ++ y :: x :: suf) t).Swap ((pre.length + 1 : Nat) : Int) (pre.length : Int)
      = sortedList.mk (pre ++ x :: y :: suf) t := by
  have h1 : getLoop (pre ++ y :: x :: suf) ((pre.length : Int) + 1) = x := by
    rw [getLoop_append _ _ _ (by omega)]; simp [getLoop]
  have h0 : getLoop (pre ++ y :: x :: suf) ((pre.length : Int) + 0) = y := by
    rw [getLoop_append _ _ _ (by omega)]; simp [getLoop]
  have hn1 : ¬ ((pre.length : Int) + 1 < 0) := by omega
  have hn0 : ¬ ((pre.length : Int) < 0) := by omega
  have s1 : setLoop (pre ++ y :: x :: suf) ((pre.length : Int) + 1) y = pre ++ y :: y :: suf := by
    rw [setLoop_append _ _ _ _ (by omega)]
    simp [setLoop, setLoop_neg]
  have s0 : setLoop (pre ++ y :: y :: suf) ((pre.length : Int) + 0) x = pre ++ x :: y :: suf := by
    rw [setLoop_append _ _ _ _ (by omega)]
    simp [setLoop, setLoop_neg]
  simp only [add_zero] at h0 s0
  simp [sortedList.Swap, sortedList.Get, sortedList.Set, hn1, hn0, h1, h0, s1, s0]

/-- The inner loop started at the boundary of a sorted prefix inserts the
next element in the prefix. -/
theorem insertionInner_spec (j : Nat) : ∀ (pre suf t : List Int) (x : Int), pre.length = j →
    ∃ q, insertionInner (sortedList.mk (pre ++ x :: suf) t) j = sortedList.mk (q ++ suf) t ∧
      List.Perm q (pre ++ [x]) ∧ (List.Sorted (· ≤ ·) pre → List.Sorted (· ≤ ·) q) := by
  induction j with
  | zero =>
    intro pre suf t x hlen
    have hpre : pre = [] := List.length_eq_zero.mp hlen
    subst hpre
    exact ⟨[x], by simp [insertionInner], by simp, fun _ => List.sorted_singleton x⟩
  | succ j ih =>
    intro pre suf t x hlen
    obtain ⟨pre1, y, rfl⟩ : ∃ pre1 y, pre = pre1 ++ [y] := by
      rcases List.eq_nil_or_concat pre with h | ⟨L, b, h⟩
      · subst h; simp at hlen
      · exact ⟨L, b, by simpa using h⟩
    have hlen1 : pre1.length = j := by simpa using hlen
    have hform : (pre1 ++ [y]) ++ x :: suf = pre1 ++ y :: x :: suf := by simp
    rw [hform]
    have hless := Less_adjacent pre1 suf t y x
    have hswap := Swap_adjacent pre1 suf t y x
    rw [hlen1] at hless hswap
    by_cases hxy : x < y
    · obtain ⟨q, hq, hperm, hsorted⟩ := ih pre1 (y :: suf) t x hlen1
      refine ⟨q ++ [y], ?_, ?_, ?_⟩
      · simp only [insertionInner, hless, hxy, decide_True, if_true, hswap, hq]
        simp
      · have p1 : List.Perm (q ++ [y]) ((pre1 ++ [x]) ++ [y]) := hperm.append_right [y]
        have p2 : List.Perm ((pre1 ++ [x]) ++ [y]) ((pre1 ++ [y]) ++ [x]) := by
          simp only [List.append_assoc]
          exact List.Perm.append_left pre1 List.perm_append_comm
        exact p1.trans p2
      · intro hs
        have hs1 : List.Sorted (· ≤ ·) pre1 ∧ ∀ a ∈ pre1, a ≤ y := by
          have := List.pairwise_append.mp hs
          exact ⟨this.1, fun a ha => this.2.2 a ha y (by simp)⟩
        refine List.pairwise_append.mpr ⟨hsorted hs1.1, List.pairwise_singleton _ _, ?_⟩
        intro a ha b hb
        have hb' : b = y := by simpa using hb
        subst hb'
        have : a ∈ pre1 ++ [x] := hperm.subset ha
        rcases List.mem_append.mp this with h | h
        · exact hs1.2 a h
        · have : a = x := by simpa using h
          omega
    · refine ⟨pre1 ++ [y] ++ [x], ?_, List.Perm.refl _, ?_⟩
      · simp only [insertionInner, hless, hxy, decide_False]
        simp
      · intro hs
        have hs1 := List.pairwise_append.mp hs
        refine List.pairwise_append.mpr ⟨hs, List.pairwise_singleton _ _, ?_⟩
        intro a ha b hb
        have hb' : b = x := by simpa using hb
        subst hb'
        rcases List.mem_append.mp ha with h | h
        · have := hs1.2.2 a h y (by simp)
          omega
        · have : a = y := by simpa using h
          omega

/-- The outer loop extends a sorted prefix over the rest of the sequence. -/
theorem insertionOuter_spec (k : Nat) : ∀ (pre rest t : List Int), rest.length = k →
    List.Sorted (· ≤ ·) pre →
    ∃ s, insertionOuter (sortedList.mk (pre ++ rest) t) pre.length k = sortedList.mk s t ∧
      List.Perm s (pre ++ rest) ∧ List.Sorted (· ≤ ·) s := by
  induction k with
  | zero =>
    intro pre rest t hlen hs
    have hrest : rest = [] := List.length_eq_zero.mp hlen
    subst hrest
    exact ⟨pre, by simp [insertionOuter], by simp, hs⟩
  | succ k ih =>
    intro pre rest t hlen hs
    obtain ⟨x, rest1, rfl⟩ : ∃ x rest1, rest = x :: rest1 := by
      cases rest with
      | nil => simp at hlen
      | cons x rest1 => exact ⟨x, rest1, rfl⟩
    obtain ⟨q, hq, hperm, hsorted⟩ := insertionInner_spec pre.length pre rest1 t x rfl
    have hqlen : q.length = pre.length + 1 := by simpa using hperm.length_eq
    obtain ⟨s, hs1, hs2, hs3⟩ := ih q rest1 t (by simpa using hlen) (hsorted hs)
    refine ⟨s, ?_, ?_, hs3⟩
    · simp only [insertionOuter, hq]
      rw [← hqlen]; exact hs1
    · have p1 : List.Perm (q ++ rest1) ((pre ++ [x]) ++ rest1) := hperm.append_right rest1
      have p2 : (pre ++ [x]) ++ rest1 = pre ++ x :: rest1 := by simp
      exact hs2.trans (p2 ▸ p1)

/-- The library sort leaves the linked sequence ascending, with the same
elements, and does not touch the flattened array. -/
theorem sort_Sort_spec (sl : sortedList) :
    (sort_Sort sl).tableId = sl.tableId ∧ List.Perm (sort_Sort sl).l sl.l ∧
      List.Sorted (· ≤ ·) (sort_Sort sl).l := by
  obtain ⟨l, t⟩ := sl
  cases l with
  | nil => simp [sort_Sort, insertionOuter]
  | cons x rest =>
    obtain ⟨s, h1, h2, h3⟩ := insertionOuter_spec rest.length [x] rest t rfl (List.sorted_singleton x)
    have : sort_Sort (sortedList.mk (x :: rest) t) = sortedList.mk s t := by
      simpa [sort_Sort] using h1
    rw [this]
    exact ⟨rfl, by simpa using h2, h3⟩


theorem Sort_spec (sl : sortedList) :
    (sl.Sort).tableId = (sl.Sort).l ∧ List.Perm (sl.Sort).l sl.l ∧
      List.Sorted (· ≤ ·) (sl.Sort).l := by
  have h := sort_Sort_spec sl
  simp only [sortedList.Sort, flatten_eq]
  exact ⟨trivial, h.2.1, h.2.2⟩

/-- Sorting an ascending sequence changes nothing in it. -/
theorem Sort_of_sorted (sl : sortedList) (h : List.Sorted (· ≤ ·) sl.l) :
    sl.Sort = sortedList.mk sl.l sl.l := by
  have hs := Sort_spec sl
  have hl : (sl.Sort).l = sl.l := List.eq_of_perm_of_sorted hs.2.1 hs.2.2 h
  have ht : (sl.Sort).tableId = sl.l := by rw [hs.1, hl]
  cases hsl : sl.Sort with
  | mk l t =>
    rw [hsl] at hl ht
    simp only at hl ht
    rw [hl, ht]

theorem Add_spec (sl : sortedList) (i : Int) :
    (sl.Add i).tableId = (sl.Add i).l ∧ List.Perm (sl.Add i).l (i :: sl.l) ∧
      List.Sorted (· ≤ ·) (sl.Add i).l :=
  Sort_spec { sl with l := i :: sl.l }

theorem Delete_spec (sl : sortedList) (val : Int) :
    (sl.Delete val).tableId = (sl.Delete val).l ∧ List.Perm (sl.Delete val).l (sl.l.erase val) ∧
      List.Sorted (· ≤ ·) (sl.Delete val).l := by
  have h := Sort_spec { sl with l := deleteLoop sl.l val }
  simp only [deleteLoop_eq_erase] at h
  simpa [sortedList.Delete, deleteLoop_eq_erase] using h

/-! ## The registry invariant -/

theorem IndexInv_NewTables : IndexInv NewTables := by
  refine ⟨rfl, ?_, ?_⟩
  · simp [NewTables, newSortList]
  · intro id
    simp [NewTables, newSortList]

theorem IndexInv_insert (ts : Tables) (heap : List Table) (id : Int) (p : Ptr) (ex : IdMap)
    (h : IndexInv ts) (hid : id ∉ ts.Tables) :
    IndexInv { heap := heap, Tables := ts.Tables.insert id p,
               sortedTableId := ts.sortedTableId.Add id, expires := ex } := by
  obtain ⟨_, hsorted, hmem⟩ := h
  obtain ⟨a1, a2, a3⟩ := Add_spec ts.sortedTableId id
  have hnd : (id :: ts.sortedTableId.l).Nodup :=
    List.nodup_cons.mpr ⟨fun hin => hid ((hmem id).mp hin), hsorted.nodup⟩
  refine ⟨a1, a3.lt_of_le (a2.nodup_iff.mpr hnd), ?_⟩
  intro j
  rw [a2.mem_iff, List.mem_cons, hmem j, AList.mem_insert]

theorem IndexInv_erase (ts : Tables) (id : Int) (ex : IdMap) (h : IndexInv ts) :
    IndexInv { heap := ts.heap, Tables := ts.Tables.erase id,
               sortedTableId := ts.sortedTableId.Delete id, expires := ex } := by
  obtain ⟨_, hsorted, hmem⟩ := h
  obtain ⟨d1, d2, d3⟩ := Delete_spec ts.sortedTableId id
  have hnd : (ts.sortedTableId.l.erase id).Nodup := hsorted.nodup.erase id
  refine ⟨d1, d3.lt_of_le (d2.nodup_iff.mpr hnd), ?_⟩
  intro j
  rw [d2.mem_iff, hsorted.nodup.mem_erase_iff, hmem j, AList.mem_erase]

theorem IndexInv_NewTable (ts : Tables) (id : Int) (title host : String) (bet now : Int)
    (h : IndexInv ts) : IndexInv (ts.NewTable id title host bet now).1 := by
  unfold Tables.NewTable
  by_cases hx : (ts.Tables.lookup id).isSome = true
  · simpa [hx] using h
  · simp only [hx]
    exact IndexInv_insert ts _ id _ ts.expires h (fun hin => hx (AList.lookup_isSome.mpr hin))

theorem IndexInv_DelTable (ts : Tables) (id : Int) (h : IndexInv ts) :
    IndexInv (ts.DelTable id) :=
  IndexInv_erase ts id ts.expires h

theorem IndexInv_ReleaseExpireTable (ts : Tables) (tid : Int) (h : IndexInv ts) :
    IndexInv (ts.ReleaseExpireTable tid) :=
  IndexInv_erase ts tid (ts.expires.erase tid) h

theorem IndexInv_apply (ts : Tables) (c : RegistryCall) (h : IndexInv ts) :
    IndexInv (c.apply ts) := by
  cases c with
  | NewTable id title host bet now => exact IndexInv_NewTable ts id title host bet now h
  | DelTable id => exact IndexInv_DelTable ts id h
  | ReleaseExpireTable tid => exact IndexInv_ReleaseExpireTable ts tid h

theorem IndexInv_runCalls (calls : List RegistryCall) :
    ∀ ts : Tables, IndexInv ts → IndexInv (runCalls ts calls) := by
  induction calls with
  | nil => intro ts h; exact h
  | cons c calls ih =>
    intro ts h
    exact ih (c.apply ts) (IndexInv_apply ts c h)

theorem HeapInv_NewTables : HeapInv NewTables := by
  intro id p h
  simp [NewTables] at h

theorem HeapInv_apply (ts : Tables) (c : RegistryCall) (h : HeapInv ts) :
    HeapInv (c.apply ts) := by
  cases c with
  | NewTable id title host bet now =>
    by_cases hx : (ts.Tables.lookup id).isSome = true
    · have e : (RegistryCall.NewTable id title host bet now).apply ts = ts := by
        simp [RegistryCall.apply, Tables.NewTable, hx]
      rw [e]; exact h
    · have e : (RegistryCall.NewTable id title host bet now).apply ts =
          { ts with
            heap := ts.heap ++ [newTable id title host bet now]
            Tables := ts.Tables.insert id ts.heap.length
            sortedTableId := ts.sortedTableId.Add id } := by
        simp [RegistryCall.apply, Tables.NewTable, hx]
      rw [e]
      intro j p hj
      show p < (ts.heap ++ [newTable id title host bet now]).length
      rw [List.length_append, List.length_singleton]
      change (ts.Tables.insert id ts.heap.length).lookup j = some p at hj
      by_cases hji : j = id
      · subst hji
        rw [AList.lookup_insert] at hj
        simp only [Option.some.injEq] at hj
        exact hj ▸ Nat.lt_succ_self _
      · rw [AList.lookup_insert_ne hji] at hj
        exact Nat.lt_succ_of_lt (h j p hj)
  | DelTable id =>
    intro j p hj
    simp only [RegistryCall.apply, Tables.DelTable] at hj ⊢
    by_cases hji : j = id
    · subst hji
      rw [AList.lookup_erase] at hj
      cases hj
    · rw [AList.lookup_erase_ne hji] at hj
      exact h j p hj
  | ReleaseExpireTable tid =>
    intro j p hj
    simp only [RegistryCall.apply, Tables.ReleaseExpireTable] at hj ⊢
    by_cases hji : j = tid
    · subst hji
      rw [AList.lookup_erase] at hj
      cases hj
    · rw [AList.lookup_erase_ne hji] at hj
      exact h j p hj

theorem HeapInv_runCalls (calls : List RegistryCall) :
    ∀ ts : Tables, HeapInv ts → HeapInv (runCalls ts calls) := by
  induction calls with
  | nil => intro ts h; exact h
  | cons c calls ih =>
    intro ts h
    exact ih (c.apply ts) (HeapInv_apply ts c h)

/-- In a registry that satisfies both invariants every id of the ordered
index has a table object. -/
theorem tableAt_isSome_of_inv (ts : Tables) (hi : IndexInv ts) (hh : HeapInv ts) :
    ∀ id ∈ ts.sortedTableId.GetAll, (ts.tableAt id).isSome = true := by
  intro id hid
  obtain ⟨h1, _, h3⟩ := hi
  have hmem : id ∈ ts.Tables := (h3 id).mp (by rw [← h1]; exact hid)
  have hsome := AList.lookup_isSome.mpr hmem
  cases hl : ts.Tables.lookup id with
  | none => rw [hl] at hsome; simp at hsome
  | some p =>
    have hp := hh id p hl
    simp [Tables.tableAt, Tables.deref, hl, List.getElem?_eq_getElem hp]

/-- C1: after every sequence of `NewTable`, `DelTable` and
`ReleaseExpireTable` calls on a fresh registry, `GetAll()` of the ordered
index is strictly ascending, an id is in it exactly when it is a key of the
id map, and every key occurs in it exactly once. -/
theorem C1_index_equals_map_keys (calls : List RegistryCall) :
    List.Sorted (· < ·) (runCalls NewTables calls).sortedTableId.GetAll ∧
    (∀ id : Int, id ∈ (runCalls NewTables calls).sortedTableId.GetAll ↔
      ((runCalls NewTables calls).Tables.lookup id).isSome = true) ∧
    (∀ id : Int, ((runCalls NewTables calls).Tables.lookup id).isSome = true →
      (runCalls NewTables calls).sortedTableId.GetAll.count id = 1) := by
  obtain ⟨h1, h2, h3⟩ := IndexInv_runCalls calls NewTables IndexInv_NewTables
  have hs : List.Sorted (· < ·) (runCalls NewTables calls).sortedTableId.GetAll := by
    rw [sortedList.GetAll, h1]; exact h2
  have hm : ∀ id : Int, id ∈ (runCalls NewTables calls).sortedTableId.GetAll ↔
      ((runCalls NewTables calls).Tables.lookup id).isSome = true := by
    intro id
    rw [sortedList.GetAll, h1, h3 id, AList.lookup_isSome]
  refine ⟨hs, hm, ?_⟩
  intro id hid
  exact List.count_eq_one_of_mem hs.nodup ((hm id).mpr hid)

/-! ## `NewTable`, `JoinTable`, `Join` -/

theorem tableAt_NewTable_fresh (ts : Tables) (id : Int) (title host : String) (bet now : Int)
    (h : ts.Tables.lookup id = none) :
    (ts.NewTable id title host bet now).1.tableAt id = some (newTable id title host bet now) := by
  simp [Tables.NewTable, h, Tables.tableAt, Tables.deref, AList.lookup_insert]

/-- C2: `NewTable` returns `ErrExisted` exactly when the id is a key of the
id map, and then the whole registry (heap of tables, id map, ordered index,
expired snapshot) is unchanged; otherwise it returns nil and the id map holds
under the id the table built by `newTable`: status `statWaiting`, both seats
empty, both readiness flags false, countdown 120. -/
theorem C2_NewTable_existing_id (ts : Tables) (id : Int) (title host : String) (bet now : Int) :
    ((ts.NewTable id title host bet now).2 = some Err.ErrExisted ↔
      (ts.Tables.lookup id).isSome = true) ∧
    ((ts.NewTable id title host bet now).2 = some Err.ErrExisted →
      (ts.NewTable id title host bet now).1 = ts) ∧
    ((ts.NewTable id title host bet now).2 = some Err.ErrExisted ∨
      (ts.NewTable id title host bet now).2 = none) ∧
    ((ts.NewTable id title host bet now).2 = none →
      ∃ t : Table, (ts.NewTable id title host bet now).1.tableAt id = some t ∧
        t = newTable id title host bet now ∧
        t.tStat = statWaiting ∧ t._1p = none ∧ t._2p = none ∧
        t.ready1p = false ∧ t.ready2p = false ∧ t.remainedSeconds = 120) := by
  by_cases hx : (ts.Tables.lookup id).isSome = true
  · have hr : ts.NewTable id title host bet now = (ts, some Err.ErrExisted) := by
      simp [Tables.NewTable, hx]
    rw [hr]
    simp [hx]
  · have hnone : ts.Tables.lookup id = none := by
      cases h : ts.Tables.lookup id with
      | none => rfl
      | some p => simp [h] at hx
    have h2 : (ts.NewTable id title host bet now).2 = none := by
      simp [Tables.NewTable, hx]
    refine ⟨?_, ?_, Or.inr h2, ?_⟩
    · simp [h2, hx]
    · intro h; rw [h2] at h; cases h
    · intro _
      exact ⟨newTable id title host bet now, tableAt_NewTable_fresh ts id title host bet now hnone,
        rfl, rfl, rfl, rfl, rfl, rfl, rfl⟩

/-- C3: `JoinTable` returns `ErrNotExist` exactly when the id is not a key
of the id map, and then the registry it leaves (heap of tables, id map,
ordered index, expired snapshot) is the registry it was given. -/
theorem C3_JoinTable_unknown_id (ts : Tables) (id : Int) (u : User) (isOb : Bool) :
    ((∃ ts1 : Tables, ts.JoinTable id u isOb = .ok (ts1, some Err.ErrNotExist)) ↔
      ts.Tables.lookup id = none) ∧
    (∀ ts1 : Tables, ts.JoinTable id u isOb = .ok (ts1, some Err.ErrNotExist) → ts1 = ts) := by
  cases hl : ts.Tables.lookup id with
  | none =>
    have hr : ts.JoinTable id u isOb = .ok (ts, some Err.ErrNotExist) := by
      simp [Tables.JoinTable, hl]
    refine ⟨⟨fun _ => rfl, fun _ => ⟨ts, hr⟩⟩, ?_⟩
    intro ts1 h1
    rw [hr] at h1
    simp only [Except.ok.injEq, Prod.mk.injEq] at h1
    exact h1.1.symm
  | some p =>
    have key : ∀ ts1 : Tables, ts.JoinTable id u isOb ≠ .ok (ts1, some Err.ErrNotExist) := by
      intro ts1 h1
      unfold Tables.JoinTable at h1
      rw [hl] at h1
      simp only at h1
      cases hd : ts.deref p with
      | none => rw [hd] at h1; simp at h1
      | some t =>
        rw [hd] at h1
        cases isOb with
        | true => simp at h1
        | false =>
          simp only [Bool.false_eq_true, if_false, Except.ok.injEq, Prod.mk.injEq] at h1
          have h2 := h1.2
          unfold Table.Join at h2
          split_ifs at h2
          simp at h2
    refine ⟨⟨fun ⟨ts1, h1⟩ => absurd h1 (key ts1), fun h => by cases h⟩, ?_⟩
    intro ts1 h1
    exact absurd h1 (key ts1)

/-- C4: `Join` seats the user in seat 1 when it is empty, else in seat 2
when that is empty, else returns `ErrRoomFull` and changes nothing; the other
seat, the readiness flags, the observers, the status and the countdown are
never changed, and an error is returned only when both seats are occupied. -/
theorem C4_Table_Join (t : Table) (u : User) :
    (t._1p = none → t.Join u = ({ t with _1p := some u }, none)) ∧
    (t._1p ≠ none → t._2p = none → t.Join u = ({ t with _2p := some u }, none)) ∧
    (t._1p ≠ none → t._2p ≠ none → t.Join u = (t, some Err.ErrRoomFull)) ∧
    (t._1p = none → (t.Join u).1._1p = some u ∧ (t.Join u).1._2p = t._2p) ∧
    (t._1p ≠ none → t._2p = none → (t.Join u).1._1p = t._1p ∧ (t.Join u).1._2p = some u) ∧
    ((t.Join u).1.ready1p = t.ready1p ∧ (t.Join u).1.ready2p = t.ready2p ∧
      (t.Join u).1.obs = t.obs ∧ (t.Join u).1.tStat = t.tStat ∧
      (t.Join u).1.remainedSeconds = t.remainedSeconds) ∧
    ((t.Join u).2 ≠ none ↔ (t._1p ≠ none ∧ t._2p ≠ none)) := by
  unfold Table.Join
  by_cases h1 : t._1p = none
  · simp [h1]
  · by_cases h2 : t._2p = none
    · simp [h1, h2]
    · simp [h1, h2]

/-! ## `Expire`, `ResetTable` -/

theorem wrapInt_of_range (x : Int) (h1 : minInt ≤ x) (h2 : x ≤ maxInt) : wrapInt x = x := by
  unfold wrapInt
  unfold minInt at h1
  unfold maxInt at h2
  omega

theorem statWaiting_ne_statInGame : statWaiting ≠ statInGame := by decide

/-- C5: for a table whose status is one of the two declared constants,
`Expire()` at time `now` is true exactly when, with `dur` the `tDur` of the
source, (both seats are empty and `dur > 10`) or (the status is in-game and
`dur > 300`) or (a seat is occupied, the status is waiting and `dur > 3600`);
it is false at `dur = 10` on an empty table, at `dur = 300` on an occupied
in-game table and at `dur = 3600` on an occupied waiting table; and `dur` is
`now - startTime` whenever that difference is an `int64`. -/
theorem C5_Expire_iff (t : Table) (now : Int)
    (hstat : t.tStat = statWaiting ∨ t.tStat = statInGame) :
    (t.Expire now = true ↔
      ((t._1p = none ∧ t._2p = none) ∧ t.tDur now > 10) ∨
      (t.tStat = statInGame ∧ t.tDur now > 300) ∨
      ((t._1p ≠ none ∨ t._2p ≠ none) ∧ t.tStat = statWaiting ∧ t.tDur now > 3600)) ∧
    (t._1p = none ∧ t._2p = none → t.tDur now = 10 → t.Expire now = false) ∧
    ((t._1p ≠ none ∨ t._2p ≠ none) → t.tStat = statInGame → t.tDur now = 300 →
      t.Expire now = false) ∧
    ((t._1p ≠ none ∨ t._2p ≠ none) → t.tStat = statWaiting → t.tDur now = 3600 →
      t.Expire now = false) ∧
    (minInt ≤ now - t.startTime → now - t.startTime ≤ maxInt →
      t.tDur now = now - t.startTime) := by
  have hne := statWaiting_ne_statInGame
  refine ⟨?_, ?_, ?_, ?_, ?_⟩
  · simp only [Table.Expire, maxNoPlayerDurationInSecs, maxGameDurationInSecs,
      maxIdleDurationInSecs]
    by_cases he : t._1p = none ∧ t._2p = none
    · rw [if_pos he]
      simp only [decide_eq_true_eq]
      constructor
      · intro h; exact Or.inl ⟨he, h⟩
      · rintro (⟨_, h⟩ | ⟨_, h⟩ | ⟨hocc, _⟩)
        · exact h
        · omega
        · rcases hocc with h | h
          · exact absurd he.1 h
          · exact absurd he.2 h
    · have hocc : t._1p ≠ none ∨ t._2p ≠ none := by
        by_contra hc
        push_neg at hc
        exact he hc
      rw [if_neg he]
      rcases hstat with hw | hg
      · have hng : ¬ t.tStat = statInGame := by rw [hw]; exact hne
        rw [if_neg hng]
        simp only [decide_eq_true_eq]
        constructor
        · intro h; exact Or.inr (Or.inr ⟨hocc, hw, h⟩)
        · rintro (⟨hh, _⟩ | ⟨hg, _⟩ | ⟨_, _, h⟩)
          · exact absurd hh he
          · exact absurd hg hng
          · exact h
      · have hnw : ¬ t.tStat = statWaiting := by rw [hg]; exact fun h => hne h.symm
        rw [if_pos hg]
        simp only [decide_eq_true_eq]
        constructor
        · intro h; exact Or.inr (Or.inl ⟨hg, h⟩)
        · rintro (⟨hh, _⟩ | ⟨_, h⟩ | ⟨_, hw, _⟩)
          · exact absurd hh he
          · exact h
          · exact absurd hw hnw
  · intro he hd
    unfold Table.Expire
    simp [he, hd, maxNoPlayerDurationInSecs]
  · intro hocc hg hd
    have he : ¬ (t._1p = none ∧ t._2p = none) := by
      rintro ⟨h1, h2⟩
      rcases hocc with h | h
      · exact h h1
      · exact h h2
    unfold Table.Expire
    simp [he, hg, hd, maxGameDurationInSecs]
  · intro hocc hw hd
    have he : ¬ (t._1p = none ∧ t._2p = none) := by
      rintro ⟨h1, h2⟩
      rcases hocc with h | h
      · exact h h1
      · exact h h2
    have hng : ¬ t.tStat = statInGame := by rw [hw]; exact hne
    unfold Table.Expire
    simp [he, hng, hd, maxIdleDurationInSecs]
  · intro h1 h2
    exact wrapInt_of_range _ h1 h2

/-- C5 at a waiting table created at time 100 with one player, asked at
time 3701: `dur` is 3601 and the table expires. -/
theorem C5_Expire_iff_witness :
    (exampleWaitingTable.tStat = statWaiting ∨ exampleWaitingTable.tStat = statInGame) ∧
    exampleWaitingTable.tDur 3701 = 3601 ∧
    (exampleWaitingTable.Expire 3701 = true ↔
      ((exampleWaitingTable._1p = none ∧ exampleWaitingTable._2p = none) ∧
        exampleWaitingTable.tDur 3701 > 10) ∨
      (exampleWaitingTable.tStat = statInGame ∧ exampleWaitingTable.tDur 3701 > 300) ∨
      ((exampleWaitingTable._1p ≠ none ∨ exampleWaitingTable._2p ≠ none) ∧
        exampleWaitingTable.tStat = statWaiting ∧ exampleWaitingTable.tDur 3701 > 3600)) ∧
    exampleWaitingTable.Expire 3701 = true :=
  ⟨Or.inl rfl, by decide, (C5_Expire_iff exampleWaitingTable 3701 (Or.inl rfl)).1, by decide⟩

/-- The three branches of `Expire`, whatever string the status holds: a
status other than `statInGame` is treated as waiting. -/
theorem Expire_branches (t : Table) (now : Int) :
    t.Expire now = true ↔
      ((t._1p = none ∧ t._2p = none) ∧ t.tDur now > 10) ∨
      (¬ (t._1p = none ∧ t._2p = none) ∧ t.tStat = statInGame ∧ t.tDur now > 300) ∨
      (¬ (t._1p = none ∧ t._2p = none) ∧ t.tStat ≠ statInGame ∧ t.tDur now > 3600) := by
  simp only [Table.Expire, maxNoPlayerDurationInSecs, maxGameDurationInSecs,
    maxIdleDurationInSecs]
  by_cases he : t._1p = none ∧ t._2p = none
  · rw [if_pos he]
    simp [he]
  · rw [if_neg he]
    by_cases hg : t.tStat = statInGame
    · rw [if_pos hg]
      simp [he, hg]
    · rw [if_neg hg]
      simp [he, hg]

/-- C9: whatever the table, after `ResetTable` both readiness flags are
false, both simulation instances are absent, the countdown is 120 and the
status is `statWaiting`. -/
theorem C9_ResetTable (t : Table) :
    t.ResetTable.ready1p = false ∧ t.ResetTable.ready2p = false ∧
    t.ResetTable.g1p = none ∧ t.ResetTable.g2p = none ∧
    t.ResetTable.remainedSeconds = 120 ∧ t.ResetTable.tStat = statWaiting :=
  ⟨rfl, rfl, rfl, rfl, rfl, rfl⟩

/-! ## `ReleaseExpireTable` -/

theorem AList_erase_of_lookup_none (m : IdMap) (k : Int) (h : m.lookup k = none) :
    m.erase k = m := by
  apply AList.ext
  have hk : k ∉ m.entries.keys := by
    have := AList.lookup_eq_none.mp h
    exact fun hin => this (AList.mem_keys.mpr hin)
  simp [AList.erase, List.kerase_of_not_mem_keys hk]

theorem Delete_of_sorted_not_mem (sl : sortedList) (val : Int)
    (ht : sl.tableId = sl.l) (hs : List.Sorted (· ≤ ·) sl.l) (hm : val ∉ sl.l) :
    sl.Delete val = sl := by
  have he : sl.l.erase val = sl.l := List.erase_of_not_mem hm
  unfold sortedList.Delete
  rw [deleteLoop_eq_erase, he]
  have := Sort_of_sorted { sl with l := sl.l } hs
  rw [this]
  cases sl with
  | mk l t => simp only at ht; simp [ht]

/-- C10: in a registry whose ordered index agrees with the id map, after
`ReleaseExpireTable(tid)` the id is in none of the id map, the expired
snapshot and the ordered index, every other id is kept in each of the three,
the table objects are untouched, and a second `ReleaseExpireTable(tid)`
leaves the registry exactly as the first call left it. -/
theorem C10_ReleaseExpireTable (ts : Tables) (tid : Int) (h : IndexInv ts) :
    (ts.ReleaseExpireTable tid).Tables.lookup tid = none ∧
    (ts.ReleaseExpireTable tid).expires.lookup tid = none ∧
    tid ∉ (ts.ReleaseExpireTable tid).sortedTableId.GetAll ∧
    (∀ j : Int, j ≠ tid →
      (ts.ReleaseExpireTable tid).Tables.lookup j = ts.Tables.lookup j ∧
      (ts.ReleaseExpireTable tid).expires.lookup j = ts.expires.lookup j ∧
      (j ∈ (ts.ReleaseExpireTable tid).sortedTableId.GetAll ↔ j ∈ ts.sortedTableId.GetAll)) ∧
    (ts.ReleaseExpireTable tid).heap = ts.heap ∧
    (ts.ReleaseExpireTable tid).ReleaseExpireTable tid = ts.ReleaseExpireTable tid := by
  obtain ⟨ht, hsorted, hmem⟩ := h
  obtain ⟨d1, d2, d3⟩ := Delete_spec ts.sortedTableId tid
  have hnd := hsorted.nodup
  have hmem1 : ∀ j : Int, j ∈ (ts.sortedTableId.Delete tid).l ↔ j ≠ tid ∧ j ∈ ts.sortedTableId.l := by
    intro j
    rw [d2.mem_iff, hnd.mem_erase_iff]
  have hnot : tid ∉ (ts.sortedTableId.Delete tid).l := fun hin => ((hmem1 tid).mp hin).1 rfl
  refine ⟨AList.lookup_erase tid ts.Tables, AList.lookup_erase tid ts.expires, ?_, ?_, rfl, ?_⟩
  · show tid ∉ (ts.sortedTableId.Delete tid).tableId
    rw [d1]; exact hnot
  · intro j hj
    refine ⟨AList.lookup_erase_ne hj, AList.lookup_erase_ne hj, ?_⟩
    show j ∈ (ts.sortedTableId.Delete tid).tableId ↔ j ∈ ts.sortedTableId.tableId
    rw [d1, ht, hmem1 j]
    exact ⟨fun hh => hh.2, fun hh => ⟨hj, hh⟩⟩
  · have e1 : (ts.Tables.erase tid).erase tid = ts.Tables.erase tid :=
      AList_erase_of_lookup_none _ _ (AList.lookup_erase tid ts.Tables)
    have e2 : (ts.expires.erase tid).erase tid = ts.expires.erase tid :=
      AList_erase_of_lookup_none _ _ (AList.lookup_erase tid ts.expires)
    have e3 : (ts.sortedTableId.Delete tid).Delete tid = ts.sortedTableId.Delete tid :=
      Delete_of_sorted_not_mem _ _ d1 d3 hnot
    simp only [Tables.ReleaseExpireTable, e1, e2, e3]

/-! ## The window of `Wrap` -/

theorem ediv_eq_of_bounds (x n q : Int) (hn : 0 < n) (h1 : q * n ≤ x) (h2 : x < (q + 1) * n) :
    x / n = q := by
  have a : q ≤ x / n := Int.le_ediv_of_mul_le hn h1
  have b : x / n < q + 1 := Int.ediv_lt_of_lt_mul hn h2
  omega

theorem ediv_bounds (x n : Int) (hn : 0 < n) : x / n * n ≤ x ∧ x < x / n * n + n := by
  have a := Int.ediv_mul_le x (Int.ne_of_gt hn)
  have b := Int.lt_ediv_add_one_mul_self x hn
  have c : (x / n + 1) * n = x / n * n + n := by ring
  omega

/-- The loop of `Wrap` started at `s` leaves after `m` rounds when the `m`-th
multiple is the first to reach `e` and no addition leaves the int range. -/
theorem clampLoop_steps (e n : Int) (hn : 1 ≤ n) :
    ∀ (m fuel : Nat) (s : Int), m < fuel → minInt ≤ s → s + m * n ≤ maxInt →
      e ≤ s + m * n → (∀ k : Nat, k < m → s + k * n < e) →
      clampLoop e n fuel s = some (s + m * n) := by
  intro m
  induction m with
  | zero =>
    intro fuel s hf _ _ he _
    obtain ⟨f, rfl⟩ : ∃ f, fuel = f + 1 := ⟨fuel - 1, by omega⟩
    have : ¬ s < e := by simp at he; omega
    simp [clampLoop, this]
  | succ m ih =>
    intro fuel s hf hs hmax he hlt
    obtain ⟨f, rfl⟩ : ∃ f, fuel = f + 1 := ⟨fuel - 1, by omega⟩
    have h0 : s < e := by simpa using hlt 0 (Nat.succ_pos m)
    have hexp : s + ((m + 1 : Nat) : Int) * n = s + n + (m : Int) * n := by push_cast; ring
    have hmn : 0 ≤ (m : Int) * n := by positivity
    have hw : wrapInt (s + n) = s + n := by
      apply wrapInt_of_range
      · omega
      · omega
    have hrec := ih f (s + n) (by omega) (by omega) (by omega) (by omega) (by
      intro k hk
      have := hlt (k + 1) (by omega)
      have e2 : s + ((k + 1 : Nat) : Int) * n = s + n + (k : Int) * n := by push_cast; ring
      omega)
    simp only [clampLoop, h0, if_true, hw, hrec, hexp]

/-- The window of `Wrap`, first case of the `switch`: the last index is not
beyond the first index of the requested page. -/
theorem wrapWindow_clamped (l n p : Int) (hl : 1 ≤ l) (hn : 1 ≤ n) (hp : 1 ≤ p)
    (hcase : l - 1 ≤ (p - 1) * n) (hpn : p * n ≤ maxInt) :
    wrapWindow l n p = .ok (max 0 ((l - 2) / n * n), l - 1) := by
  have hn0 : 0 < n := by omega
  obtain ⟨c1, c2⟩ := ediv_bounds (l - 2) n hn0
  set c := (l - 2) / n with hc
  have hpn1 : (p - 1) * n = p * n - n := by ring
  have hmax : maxInt = 2 ^ 63 - 1 := rfl
  have hmin : minInt = -(2 ^ 63) := rfl
  have hcge : -1 ≤ c := by
    have : -1 ≤ (l - 2) / n := Int.le_ediv_of_mul_le hn0 (by omega)
    omega
  have hstart : wrapInt ((p - 1) * n) = (p - 1) * n := by
    apply wrapInt_of_range <;> omega
  -- the loop runs `c + 1` rounds
  have hm : ((c + 1).toNat : Int) = c + 1 := Int.toNat_of_nonneg (by omega)
  have hcn : (c + 1) * n = c * n + n := by ring
  have hloop : clampLoop (l - 1) n loopFuel 0 = some (c * n + n) := by
    have h := clampLoop_steps (l - 1) n hn (c + 1).toNat loopFuel 0
    rw [hm, hcn] at h
    simp only [zero_add] at h
    apply h
    · have : c + 1 ≤ c * n + n := by nlinarith
      have h3 : ((c + 1).toNat : Int) < 2 ^ 64 := by rw [hm]; omega
      have : (c + 1).toNat < 2 ^ 64 := by exact_mod_cast h3
      exact this
    · omega
    · omega
    · omega
    · intro k hk
      have hk1 : (k : Int) ≤ c := by omega
      have : (k : Int) * n ≤ c * n := mul_le_mul_of_nonneg_right hk1 (by omega)
      omega
  have hw2 : wrapInt (c * n + n - n) = c * n := by
    rw [show c * n + n - n = c * n by ring]
    apply wrapInt_of_range <;> omega
  have hnn : ¬ n ≤ 0 := by omega
  have hnp : ¬ p ≤ 0 := by omega
  simp only [wrapWindow, hnn, hnp, if_false, hstart, hcase, if_true, hloop, hw2]
  by_cases hneg : c * n < 0
  · simp [hneg, max_eq_left (le_of_lt hneg)]
  · simp [hneg, max_eq_right (not_lt.mp hneg)]

/-- The window of `Wrap`, the other cases of the `switch`: the requested page
starts before the last index. -/
theorem wrapWindow_inside (l n p : Int) (hn : 1 ≤ n) (hp : 1 ≤ p)
    (hcase : (p - 1) * n < l - 1) (hpn : p * n ≤ maxInt) :
    wrapWindow l n p = .ok ((p - 1) * n, min (l - 1) (p * n - 1)) := by
  have hpn1 : (p - 1) * n = p * n - n := by ring
  have hmax : maxInt = 2 ^ 63 - 1 := rfl
  have hmin : minInt = -(2 ^ 63) := rfl
  have hp0 : 0 ≤ (p - 1) * n := mul_nonneg (by omega) (by omega)
  have hstart : wrapInt ((p - 1) * n) = (p - 1) * n := by
    apply wrapInt_of_range <;> omega
  have hend : wrapInt (p * n - 1) = p * n - 1 := by
    apply wrapInt_of_range <;> omega
  have hnn : ¬ n ≤ 0 := by omega
  have hnp : ¬ p ≤ 0 := by omega
  have hc1 : ¬ l - 1 ≤ (p - 1) * n := by omega
  have hs0 : ¬ (p - 1) * n < 0 := by omega
  simp only [wrapWindow, hnn, hnp, if_false, hstart, hend, hc1]
  by_cases h2 : l - 1 ≤ p * n - 1
  · simp [h2, hs0]
  · have : p * n - 1 ≤ l - 1 := by omega
    simp [h2, hs0, min_eq_right this]

/-! ## `Wrap` once the window is known -/

theorem filterWaitIds_sub (ts : Tables) : ∀ (l ids : List Int),
    filterWaitIds ts l = .ok ids → ∀ id ∈ ids, id ∈ l := by
  intro l
  induction l with
  | nil =>
    intro ids h id hid
    simp only [filterWaitIds, Except.ok.injEq] at h
    subst h
    exact absurd hid (List.not_mem_nil id)
  | cons a l ih =>
    intro ids h id hid
    unfold filterWaitIds at h
    cases ht : ts.tableAt a with
    | none => rw [ht] at h; simp at h
    | some t =>
      rw [ht] at h
      simp only at h
      cases hr : filterWaitIds ts l with
      | error e => rw [hr] at h; simp at h
      | ok ids1 =>
        rw [hr] at h
        simp only [Except.ok.injEq] at h
        subst h
        by_cases hs : t.IsStart = true
        · simp only [hs, Bool.not_true, Bool.false_eq_true, if_false] at hid
          exact List.mem_cons_of_mem a (ih ids1 hr id hid)
        · simp only [hs, Bool.not_false, if_true] at hid
          rcases List.mem_cons.mp hid with h1 | h1
          · rw [h1]; exact List.mem_cons_self a l
          · exact List.mem_cons_of_mem a (ih ids1 hr id h1)

theorem wrapIds_sub (ts : Tables) (filterWait : Bool) (ids : List Int)
    (h : ts.wrapIds filterWait = .ok ids) : ∀ id ∈ ids, id ∈ ts.sortedTableId.GetAll := by
  unfold Tables.wrapIds at h
  cases filterWait with
  | true =>
    simp only [if_true] at h
    exact filterWaitIds_sub ts _ ids h
  | false =>
    simp only [Bool.false_eq_true, if_false, Except.ok.injEq] at h
    subst h
    exact fun id hid => hid

theorem wrapViews_ok (ts : Tables) : ∀ (w : List Int),
    (∀ id ∈ w, (ts.tableAt id).isSome = true) →
    ∃ vs, wrapViews ts w = .ok vs ∧ vs.length = w.length := by
  intro w
  induction w with
  | nil => intro _; exact ⟨[], rfl, rfl⟩
  | cons a w ih =>
    intro h
    obtain ⟨vs, hvs, hlen⟩ := ih (fun id hid => h id (List.mem_cons_of_mem a hid))
    have ha := h a (List.mem_cons_self a w)
    cases ht : ts.tableAt a with
    | none => rw [ht] at ha; simp at ha
    | some t =>
      refine ⟨t.WrapTable :: vs, ?_, by simp [hlen]⟩
      simp [wrapViews, ht, hvs]

theorem sliceIds_ok (ids : List Int) (s h : Int) (h0 : 0 ≤ s) (h1 : s ≤ h)
    (h2 : h ≤ ids.length) :
    ∃ w, sliceIds ids s h = .ok w ∧ (w.length : Int) = h - s ∧ ∀ id ∈ w, id ∈ ids := by
  refine ⟨(ids.drop s.toNat).take (h - s).toNat, ?_, ?_, ?_⟩
  · simp [sliceIds, h0, h1, h2]
  · rw [List.length_take, List.length_drop]
    omega
  · intro id hid
    exact List.mem_of_mem_drop (List.mem_of_mem_take hid)

theorem Wrap_of_window (ts : Tables) (n p : Int) (filterWait : Bool) (ids : List Int)
    (s e : Int) (hids : ts.wrapIds filterWait = .ok ids) (hne : ids.length ≠ 0)
    (hw : wrapWindow ids.length n p = .ok (s, e)) :
    ts.Wrap n p filterWait =
      match sliceIds ids s (wrapInt (e + 1)) with
      | .error err => .error err
      | .ok window => wrapViews ts window := by
  simp only [Tables.Wrap, hids, hne, if_false, hw]

/-- C7: when the (filtered) id sequence is not empty and the page `p` lies
beyond it, `(p-1)*n >= count` with `p*n` an int, `Wrap(n, p, filterWait)`
returns a non-empty list of views, the same list as
`Wrap(n, lastPage, filterWait)` for `lastPage = ceil(count / n)`. -/
theorem C7_Wrap_beyond_last_page (ts : Tables) (n p : Int) (filterWait : Bool)
    (ids : List Int)
    (hkeys : ∀ id ∈ ts.sortedTableId.GetAll, (ts.tableAt id).isSome = true)
    (hids : ts.wrapIds filterWait = .ok ids) (hcount : 0 < ids.length) (hn : 1 ≤ n)
    (hbeyond : (ids.length : Int) ≤ (p - 1) * n) (hrange : p * n ≤ maxInt) :
    ∃ views : List TableView, views ≠ [] ∧
      ts.Wrap n p filterWait = .ok views ∧
      ts.Wrap n (((ids.length : Int) + n - 1) / n) filterWait = .ok views := by
  have hn0 : 0 < n := by omega
  have hmax : maxInt = 2 ^ 63 - 1 := rfl
  have hl : (1 : Int) ≤ (ids.length : Int) := by exact_mod_cast hcount
  generalize hldef : (ids.length : Int) = l at hl hbeyond
  have hpn1 : (p - 1) * n = p * n - n := by ring
  have hp : 2 ≤ p := by
    by_contra hc
    have : (p - 1) * n ≤ 0 := mul_nonpos_of_nonpos_of_nonneg (by omega) (by omega)
    omega
  obtain ⟨q1, q2⟩ := ediv_bounds (l - 1) n hn0
  set q := (l - 1) / n with hq
  obtain ⟨c1, c2⟩ := ediv_bounds (l - 2) n hn0
  set c := (l - 2) / n with hc
  have hq0 : 0 ≤ q := Int.ediv_nonneg (by omega) (by omega)
  have hP : (l + n - 1) / n = q + 1 := by
    apply ediv_eq_of_bounds _ _ _ hn0
    · have : (q + 1) * n = q * n + n := by ring
      omega
    · have : (q + 1 + 1) * n = q * n + n + n := by ring
      omega
  have hqp : q + 1 ≤ p - 1 := by
    by_contra hcon
    have : (p - 1) * n ≤ q * n := mul_le_mul_of_nonneg_right (by omega) (by omega)
    omega
  have hPn : (q + 1) * n = q * n + n := by ring
  have hPle : (q + 1) * n ≤ (p - 1) * n := mul_le_mul_of_nonneg_right hqp (by omega)
  -- the window of the page beyond the data
  have hwp : wrapWindow l n p = .ok (max 0 (c * n), l - 1) :=
    wrapWindow_clamped l n p hl hn (by omega) (by omega) hrange
  -- the window of the last page
  have hwP : wrapWindow l n (q + 1) = .ok (max 0 (c * n), l - 1) := by
    by_cases hA : l - 1 ≤ q * n
    · exact wrapWindow_clamped l n (q + 1) hl hn (by omega)
        (by rw [show q + 1 - 1 = q by ring]; exact hA) (by omega)
    · have hin := wrapWindow_inside l n (q + 1) hn (by omega)
        (by rw [show q + 1 - 1 = q by ring]; omega) (by omega)
      rw [hin, show q + 1 - 1 = q by ring]
      have hcq : c = q := by
        rw [hc]
        apply ediv_eq_of_bounds _ _ _ hn0 <;> omega
      have e1 : min (l - 1) ((q + 1) * n - 1) = l - 1 := min_eq_left (by omega)
      have e2 : max 0 (c * n) = q * n := by
        rw [hcq]; exact max_eq_right (mul_nonneg hq0 (by omega))
      rw [e1, e2]
  have hs0 : 0 ≤ max 0 (c * n) := le_max_left _ _
  have hs1 : max 0 (c * n) ≤ l - 1 := max_le (by omega) (by omega)
  have hne : ids.length ≠ 0 := by omega
  have hwl : wrapInt (l - 1 + 1) = l := by
    rw [show l - 1 + 1 = l by ring]
    apply wrapInt_of_range
    · show -(2 ^ 63) ≤ l
      omega
    · omega
  obtain ⟨w, hw, hwlen, hwmem⟩ := sliceIds_ok ids (max 0 (c * n)) l hs0 (by omega)
    (by rw [hldef])
  obtain ⟨vs, hvs, hvlen⟩ := wrapViews_ok ts w
    (fun id hid => hkeys id (wrapIds_sub ts filterWait ids hids id (hwmem id hid)))
  refine ⟨vs, ?_, ?_, ?_⟩
  · intro h0
    rw [h0] at hvlen
    have : (w.length : Int) = 0 := by rw [← hvlen]; rfl
    omega
  · rw [Wrap_of_window ts n p filterWait ids _ _ hids hne (by rw [hldef]; exact hwp), hwl, hw]
    exact hvs
  · rw [hP, Wrap_of_window ts n (q + 1) filterWait ids _ _ hids hne (by rw [hldef]; exact hwP),
      hwl, hw]
    exact hvs

set_option maxRecDepth 100000 in
/-- C7 on the registry of ids `1..20` with page size 9: page 99 returns the
same non-empty list as page 3, the last page. -/
theorem C7_Wrap_beyond_last_page_witness :
    (exampleRegistry 20).wrapIds false =
      .ok [1, 2, 3, 4, 5, 6, 7, 8, 9, 10, 11, 12, 13, 14, 15, 16, 17, 18, 19, 20] ∧
    ∃ views : List TableView, views ≠ [] ∧
      (exampleRegistry 20).Wrap 9 99 false = .ok views ∧
      (exampleRegistry 20).Wrap 9 3 false = .ok views :=
  ⟨by decide,
   C7_Wrap_beyond_last_page (exampleRegistry 20) 9 99 false
     [1, 2, 3, 4, 5, 6, 7, 8, 9, 10, 11, 12, 13, 14, 15, 16, 17, 18, 19, 20]
     (by decide) (by decide) (by decide) (by decide) (by decide) (by decide)⟩

/-- C10 on the registry of ids `1, 2`: releasing id 1 leaves the index `[2]`,
and releasing it again changes nothing. -/
theorem C10_ReleaseExpireTable_witness :
    IndexInv (exampleRegistry 2) ∧
    ((exampleRegistry 2).ReleaseExpireTable 1).sortedTableId.GetAll = [2] ∧
    ((exampleRegistry 2).ReleaseExpireTable 1).ReleaseExpireTable 1 =
      (exampleRegistry 2).ReleaseExpireTable 1 :=
  ⟨IndexInv_runCalls _ _ IndexInv_NewTables, by decide,
   (C10_ReleaseExpireTable (exampleRegistry 2) 1
     (IndexInv_runCalls _ _ IndexInv_NewTables)).2.2.2.2.2⟩

/-! ## `Wrap` where the products do not overflow -/

theorem wrapInt_bounds (x : Int) : minInt ≤ wrapInt x ∧ wrapInt x ≤ maxInt := by
  unfold wrapInt minInt maxInt
  omega

/-- Whatever the arguments, the upper index `end` of the window is at most
the last index, so the upper bound of the slice expression of `Wrap` never
exceeds the length of the id slice. -/
theorem wrapWindow_end_le (l n p s e : Int) (hl : 1 ≤ l) (hlmax : l ≤ maxInt)
    (h : wrapWindow l n p = .ok (s, e)) : e ≤ l - 1 ∧ wrapInt (e + 1) ≤ l := by
  have key : e ≤ l - 1 ∧ minInt ≤ e := by
    unfold wrapWindow at h
    simp only at h
    split_ifs at h with h1 h2 h3 h4 h5 h6
    all_goals first
      | (split at h
         · exact absurd h (by simp)
         · simp only [Except.ok.injEq, Prod.mk.injEq] at h
           obtain ⟨_, rfl⟩ := h
           exact ⟨le_refl _, by unfold minInt; omega⟩)
      | (simp only [Except.ok.injEq, Prod.mk.injEq] at h
         obtain ⟨_, rfl⟩ := h
         first
           | exact ⟨le_refl _, by unfold minInt; omega⟩
           | exact ⟨by omega, (wrapInt_bounds _).1⟩)
  refine ⟨key.1, ?_⟩
  rw [wrapInt_of_range (e + 1) (by have := key.2; omega) (by have := key.1; omega)]
  omega

/-- With a positive page size and page number whose product is an int, the
window of `Wrap` is within the id slice: `0 <= start <= end+1 <= l`. -/
theorem wrapWindow_in_range (l n p : Int) (hl : 1 ≤ l) (hn : 1 ≤ n) (hp : 1 ≤ p)
    (hpn : p * n ≤ maxInt) :
    ∃ s e : Int, wrapWindow l n p = .ok (s, e) ∧ 0 ≤ s ∧ s ≤ e + 1 ∧ e + 1 ≤ l := by
  have hn0 : 0 < n := by omega
  by_cases hcase : l - 1 ≤ (p - 1) * n
  · obtain ⟨c1, _⟩ := ediv_bounds (l - 2) n hn0
    refine ⟨_, _, wrapWindow_clamped l n p hl hn hp hcase hpn, le_max_left _ _, ?_, by omega⟩
    exact le_trans (max_le (by omega) (by omega)) (by omega : l - 1 ≤ l - 1 + 1)
  · have hpn1 : (p - 1) * n = p * n - n := by ring
    have hp0 : 0 ≤ (p - 1) * n := mul_nonneg (by omega) (by omega)
    refine ⟨_, _, wrapWindow_inside l n p hn hp (by omega) hpn, hp0, ?_, ?_⟩
    · have : (p - 1) * n ≤ min (l - 1) (p * n - 1) := le_min (by omega) (by omega)
      omega
    · have : min (l - 1) (p * n - 1) ≤ l - 1 := min_le_left _ _
      omega

/-- The two arguments of `Wrap` are used normalised only: a non-positive
page size as 9, a non-positive page number as 1. -/
theorem wrapWindow_normalise (l n p : Int) :
    wrapWindow l n p =
      wrapWindow l (if n ≤ 0 then defaultTableInPage else n) (if p ≤ 0 then 1 else p) := by
  by_cases hn : n ≤ 0 <;> by_cases hp : p ≤ 0 <;>
    simp [wrapWindow, hn, hp, defaultTableInPage]

/-- A page that starts before the last index of the (filtered) id sequence
is returned in full: `Wrap` yields the views of the ids at positions
`(p-1)*n` to `min(p*n, count) - 1`. -/
theorem Wrap_page_before_last_index (ts : Tables) (n p : Int) (filterWait : Bool)
    (ids : List Int) (hids : ts.wrapIds filterWait = .ok ids) (hn : 1 ≤ n) (hp : 1 ≤ p)
    (hcase : (p - 1) * n < (ids.length : Int) - 1) (hlen : (ids.length : Int) ≤ maxInt)
    (hpn : p * n ≤ maxInt) :
    ts.Wrap n p filterWait =
      wrapViews ts ((ids.drop ((p - 1) * n).toNat).take
        (min (p * n) (ids.length : Int) - (p - 1) * n).toNat) := by
  have hpn1 : (p - 1) * n = p * n - n := by ring
  have hp0 : 0 ≤ (p - 1) * n := mul_nonneg (by omega) (by omega)
  have hne : ids.length ≠ 0 := by omega
  have hw := wrapWindow_inside (ids.length : Int) n p hn hp hcase hpn
  rw [Wrap_of_window ts n p filterWait ids _ _ hids hne hw]
  have hmin : min ((ids.length : Int) - 1) (p * n - 1) + 1 = min (p * n) (ids.length : Int) := by
    rcases le_total ((ids.length : Int) - 1) (p * n - 1) with h | h
    · rw [min_eq_left h, min_eq_right (by omega)]; ring
    · rw [min_eq_right h, min_eq_left (by omega)]; ring
  have hmin1 : min (p * n) (ids.length : Int) ≤ ids.length := min_le_right _ _
  have hmin2 : (p - 1) * n ≤ min (p * n) (ids.length : Int) := le_min (by omega) (by omega)
  have hwr : wrapInt (min ((ids.length : Int) - 1) (p * n - 1) + 1)
      = min (p * n) (ids.length : Int) := by
    rw [hmin]
    apply wrapInt_of_range
    · unfold minInt; omega
    · omega
  rw [hwr]
  simp [sliceIds, hp0, hmin1, hmin2]

/-! ## `Wrap` at the inputs where it leaves its contract -/

set_option maxRecDepth 100000 in
/-- C6: on the registry of ids `1..19` with page size 9, page 3 starts at
position 18, inside the data; `Wrap(9, 3, false)` returns the views of the
ten ids `10..19`, not the view of id `19` alone.  Likewise on the registry of
ids `1, 2` with page size 1, page 2 returns the views of both ids. -/
theorem C6_Wrap_page_at_last_index :
    (exampleRegistry 19).wrapIds false =
      .ok [1, 2, 3, 4, 5, 6, 7, 8, 9, 10, 11, 12, 13, 14, 15, 16, 17, 18, 19] ∧
    ((3 : Int) - 1) * 9 < 19 ∧
    wrapWindow 19 9 3 = .ok (9, 18) ∧
    ((exampleRegistry 19).Wrap 9 3 false).map (fun views => views.map fun v => v.table_id) =
      .ok [10, 11, 12, 13, 14, 15, 16, 17, 18, 19] ∧
    (exampleRegistry 2).wrapIds false = .ok [1, 2] ∧
    ((exampleRegistry 2).Wrap 1 2 false).map (fun views => views.map fun v => v.table_id) =
      .ok [1, 2] := by
  refine ⟨by decide, by decide, by decide, by decide, by decide, by decide⟩

/-- C8: on the registry with the single id `1`, whose ordered index holds
exactly the keys of the id map, `Wrap(4294967296, 2147483649, false)`
computes the window `start = 0`, `end = -9223372032559808513` (both products
have wrapped), and the slice expression `tableIds[start:end+1]` is out of
range. -/
theorem C8_Wrap_slice_out_of_range :
    IndexInv (exampleRegistry 1) ∧
    (exampleRegistry 1).wrapIds false = .ok [1] ∧
    wrapWindow 1 4294967296 2147483649 = .ok (0, -9223372032559808513) ∧
    (exampleRegistry 1).Wrap 4294967296 2147483649 false =
      .error Fault.sliceBoundsOutOfRange :=
  ⟨IndexInv_runCalls _ _ IndexInv_NewTables, by decide, by decide, by decide⟩

/-! ## The ordered index against its multiset -/

theorem getLoop_eq_getElem (l : List Int) : ∀ (i : Nat) (h : i < l.length),
    getLoop l (i : Int) = l[i] := by
  induction l with
  | nil => intro i h; simp at h
  | cons a l ih =>
    intro i h
    cases i with
    | zero => simp [getLoop]
    | succ i =>
      have hne : ((i + 1 : Nat) : Int) ≠ 0 := by omega
      have hlt : i < l.length := by simpa using h
      simp only [getLoop, hne, if_false, List.getElem_cons_succ]
      rw [show ((i + 1 : Nat) : Int) - 1 = (i : Int) by push_cast; ring]
      exact ih i hlt

/-- The state of the ordered index after calls that began in a state whose
flattened array is the linked sequence, ascending, with multiset `m`. -/
theorem runIndexCalls_spec (calls : List IndexCall) : ∀ (sl : sortedList) (m : Multiset Int),
    sl.tableId = sl.l → List.Sorted (· ≤ ·) sl.l → (sl.l : Multiset Int) = m →
    (runIndexCalls sl calls).tableId = (runIndexCalls sl calls).l ∧
    List.Sorted (· ≤ ·) (runIndexCalls sl calls).l ∧
    ((runIndexCalls sl calls).l : Multiset Int) = specBag m calls := by
  induction calls with
  | nil => intro sl m h1 h2 h3; exact ⟨h1, h2, h3⟩
  | cons c calls ih =>
    intro sl m h1 h2 h3
    cases c with
    | Add i =>
      obtain ⟨a1, a2, a3⟩ := Add_spec sl i
      have hm : ((sl.Add i).l : Multiset Int) = i ::ₘ m := by
        rw [← h3, Multiset.cons_coe]
        exact Multiset.coe_eq_coe.mpr a2
      exact ih (sl.Add i) (i ::ₘ m) a1 a3 hm
    | Delete val =>
      obtain ⟨d1, d2, d3⟩ := Delete_spec sl val
      have hm : ((sl.Delete val).l : Multiset Int) = m.erase val := by
        rw [← h3, Multiset.coe_erase]
        exact Multiset.coe_eq_coe.mpr d2
      exact ih (sl.Delete val) (m.erase val) d1 d3 hm

/-- C12: after every sequence of `Add` and `Delete` calls on `newSortList()`,
`GetAll()` is ascending, is the sorted arrangement of the multiset obtained by
inserting one occurrence on `Add` and removing one (if any) on `Delete`, and
agrees with the linked sequence position by position: `Len()` is its length
and `Get(i) = GetAll()[i]` for `0 <= i < Len()`. -/
theorem C12_index_sorted_multiset (calls : List IndexCall) :
    List.Sorted (· ≤ ·) (runIndexCalls newSortList calls).GetAll ∧
    ((runIndexCalls newSortList calls).GetAll : Multiset Int) = specBag 0 calls ∧
    (runIndexCalls newSortList calls).GetAll = (specBag 0 calls).sort (· ≤ ·) ∧
    (runIndexCalls newSortList calls).Len = ((runIndexCalls newSortList calls).GetAll.length : Int) ∧
    (∀ (i : Nat) (h : i < (runIndexCalls newSortList calls).GetAll.length),
      (runIndexCalls newSortList calls).Get (i : Int) =
        (runIndexCalls newSortList calls).GetAll[i]) := by
  obtain ⟨h1, h2, h3⟩ := runIndexCalls_spec calls newSortList 0 rfl
    (by simp [newSortList]) (by simp [newSortList])
  have hg : (runIndexCalls newSortList calls).GetAll = (runIndexCalls newSortList calls).l := h1
  refine ⟨by rw [hg]; exact h2, by rw [hg]; exact h3, ?_, ?_, ?_⟩
  · rw [hg, ← h3]
    exact (List.eq_of_perm_of_sorted (Multiset.coe_eq_coe.mp (Multiset.sort_eq _ _))
      (Multiset.sort_sorted _ _) h2).symm
  · rw [hg]; rfl
  · intro i h
    have hi : i < (runIndexCalls newSortList calls).l.length := by rw [← hg]; exact h
    have hn : ¬ ((i : Int) < 0) := by omega
    simp only [sortedList.Get, hn, if_false]
    rw [getLoop_eq_getElem _ i hi]
    simp only [hg]

/-! ## Seats and readiness -/

theorem GetUid_ne_of_nonneg (nilUid uid : Int) (hn : nilUid < 0) (hu : ¬ uid < 0) :
    uid ≠ GetUid nilUid none := by
  simp only [GetUid]; omega

theorem ReadyInv_apply (nilUid : Int) (hn : nilUid < 0) (t : Table) (c : TableCall)
    (h : ReadyInv t) : ReadyInv (TableCall.apply nilUid t c) := by
  obtain ⟨h1, h2⟩ := h
  cases c with
  | Join u =>
    simp only [TableCall.apply, Table.Join]
    by_cases e1 : t._1p = none
    · simp only [e1, if_true]
      exact ⟨fun _ => rfl, h2⟩
    · by_cases e2 : t._2p = none
      · simp only [e1, e2, if_true, if_false]
        exact ⟨h1, fun _ => rfl⟩
      · simp only [e1, e2, if_false]
        exact ⟨h1, h2⟩
  | JoinOB u => exact ⟨h1, h2⟩
  | Quit uid =>
    simp only [TableCall.apply, Table.Quit]
    by_cases e0 : uid < 0
    · simp only [e0, if_true]; exact ⟨h1, h2⟩
    · by_cases e1 : uid = GetUid nilUid t._1p
      · simp only [e0, if_false, if_pos e1]
        exact ⟨fun hh => by simp at hh, h2⟩
      · by_cases e2 : uid = GetUid nilUid t._2p
        · simp only [e0, if_false, if_neg e1, if_pos e2]
          exact ⟨h1, fun hh => by simp at hh⟩
        · simp only [e0, if_false, if_neg e1, if_neg e2]
          exact ⟨h1, h2⟩
  | SwitchReady uid =>
    simp only [TableCall.apply, Table.SwitchReady]
    by_cases e0 : uid < 0
    · simp only [e0, if_true]; exact ⟨h1, h2⟩
    · by_cases e1 : uid = GetUid nilUid t._1p
      · simp only [e0, if_false, if_pos e1]
        refine ⟨fun _ => ?_, h2⟩
        cases hs : t._1p with
        | none => rw [hs] at e1; exact absurd e1 (GetUid_ne_of_nonneg nilUid uid hn e0)
        | some u => rfl
      · by_cases e2 : uid = GetUid nilUid t._2p
        · simp only [e0, if_false, if_neg e1, if_pos e2]
          refine ⟨h1, fun _ => ?_⟩
          cases hs : t._2p with
          | none => rw [hs] at e2; exact absurd e2 (GetUid_ne_of_nonneg nilUid uid hn e0)
          | some u => rfl
        · simp only [e0, if_false, if_neg e1, if_neg e2]
          exact ⟨h1, h2⟩
  | Start now => exact ⟨h1, h2⟩
  | Stop now => exact ⟨fun hh => by simp [TableCall.apply, Table.Stop] at hh,
      fun hh => by simp [TableCall.apply, Table.Stop] at hh⟩
  | ResetTable => exact ⟨fun hh => by simp [TableCall.apply, Table.ResetTable] at hh,
      fun hh => by simp [TableCall.apply, Table.ResetTable] at hh⟩
  | QuitAllObs => exact ⟨h1, h2⟩

theorem ReadyInv_runTableCalls (nilUid : Int) (hn : nilUid < 0) (calls : List TableCall) :
    ∀ t : Table, ReadyInv t → ReadyInv (runTableCalls nilUid t calls) := by
  induction calls with
  | nil => intro t h; exact h
  | cons c calls ih =>
    intro t h
    exact ih _ (ReadyInv_apply nilUid hn t c h)

/-- C13: with the uid of an empty seat a negative sentinel, `Quit(uid)`
leaves the table unchanged when `uid < 0`; when `uid >= 0` is the uid of the
occupant of seat 1 it empties seat 1 and clears `ready1p` and changes nothing
else; otherwise, when it is the uid of the occupant of seat 2, it empties
seat 2 and clears `ready2p` and changes nothing else; otherwise it changes
nothing but the observer set, from which exactly the observers with that uid
are removed. -/
theorem C13_Quit (nilUid : Int) (hn : nilUid < 0) (t : Table) (uid : Int) :
    (uid < 0 → t.Quit nilUid uid = t) ∧
    (0 ≤ uid → (∃ u, t._1p = some u ∧ u.uid = uid) →
      t.Quit nilUid uid = { t with _1p := none, ready1p := false }) ∧
    (0 ≤ uid → ¬ (∃ u, t._1p = some u ∧ u.uid = uid) → (∃ u, t._2p = some u ∧ u.uid = uid) →
      t.Quit nilUid uid = { t with _2p := none, ready2p := false }) ∧
    (0 ≤ uid → ¬ (∃ u, t._1p = some u ∧ u.uid = uid) → ¬ (∃ u, t._2p = some u ∧ u.uid = uid) →
      t.Quit nilUid uid = { t with obs := t.obs.Quit uid } ∧
      (∀ u : User, u ∈ (t.Quit nilUid uid).obs ↔ u ∈ t.obs ∧ u.uid ≠ uid)) := by
  have seat : ∀ s : Option User, ¬ uid < 0 →
      (uid = GetUid nilUid s ↔ ∃ u, s = some u ∧ u.uid = uid) := by
    intro s h0
    cases s with
    | none => simp only [GetUid]; constructor
              · intro h; omega
              · rintro ⟨u, hu, _⟩; cases hu
    | some v => simp only [GetUid]; constructor
                · intro h; exact ⟨v, rfl, h.symm⟩
                · rintro ⟨u, hu, h⟩; cases hu; exact h.symm
  refine ⟨?_, ?_, ?_, ?_⟩
  · intro h; simp only [Table.Quit, h, if_true]
  · intro h0 h1
    have e0 : ¬ uid < 0 := by omega
    simp only [Table.Quit, e0, if_false, if_pos ((seat t._1p e0).mpr h1)]
  · intro h0 h1 h2
    have e0 : ¬ uid < 0 := by omega
    have n1 : ¬ uid = GetUid nilUid t._1p := fun h => h1 ((seat t._1p e0).mp h)
    simp only [Table.Quit, e0, if_false, if_neg n1, if_pos ((seat t._2p e0).mpr h2)]
  · intro h0 h1 h2
    have e0 : ¬ uid < 0 := by omega
    have n1 : ¬ uid = GetUid nilUid t._1p := fun h => h1 ((seat t._1p e0).mp h)
    have n2 : ¬ uid = GetUid nilUid t._2p := fun h => h2 ((seat t._2p e0).mp h)
    have e : t.Quit nilUid uid = { t with obs := t.obs.Quit uid } := by
      simp only [Table.Quit, e0, if_false, if_neg n1, if_neg n2]
    refine ⟨e, fun u => ?_⟩
    rw [e]
    simp [obs.Quit, List.mem_filter]

/-- A table with both seats taken where user 7 of seat 1 quits: with the
sentinel -1 the conclusions of C13 hold. -/
theorem C13_Quit_witness :
    ((-1 : Int) < 0) ∧
    (exampleSeatedTable.Quit (-1) 7 =
      { exampleSeatedTable with _1p := none, ready1p := false }) :=
  ⟨by decide, (C13_Quit (-1) (by decide) exampleSeatedTable 7).2.1 (by decide)
    ⟨⟨7⟩, rfl, rfl⟩⟩

/-- C14: with the uid of an empty seat a negative sentinel, `SwitchReady(uid)`
negates `ready1p` and nothing else when `uid >= 0` is the uid of the occupant
of seat 1, otherwise negates `ready2p` and nothing else when it is the uid of
the occupant of seat 2, and leaves the table unchanged when `uid` is negative
or matches neither occupant; applied twice it gives back the table. -/
theorem C14_SwitchReady (nilUid : Int) (hn : nilUid < 0) (t : Table) (uid : Int) :
    (0 ≤ uid → (∃ u, t._1p = some u ∧ u.uid = uid) →
      t.SwitchReady nilUid uid = { t with ready1p := !t.ready1p }) ∧
    (0 ≤ uid → ¬ (∃ u, t._1p = some u ∧ u.uid = uid) → (∃ u, t._2p = some u ∧ u.uid = uid) →
      t.SwitchReady nilUid uid = { t with ready2p := !t.ready2p }) ∧
    (uid < 0 ∨ (¬ (∃ u, t._1p = some u ∧ u.uid = uid) ∧ ¬ (∃ u, t._2p = some u ∧ u.uid = uid)) →
      t.SwitchReady nilUid uid = t) ∧
    (t.SwitchReady nilUid uid).SwitchReady nilUid uid = t := by
  have seat : ∀ s : Option User, ¬ uid < 0 →
      (uid = GetUid nilUid s ↔ ∃ u, s = some u ∧ u.uid = uid) := by
    intro s h0
    cases s with
    | none => simp only [GetUid]; constructor
              · intro h; omega
              · rintro ⟨u, hu, _⟩; cases hu
    | some v => simp only [GetUid]; constructor
                · intro h; exact ⟨v, rfl, h.symm⟩
                · rintro ⟨u, hu, h⟩; cases hu; exact h.symm
  refine ⟨?_, ?_, ?_, ?_⟩
  · intro h0 h1
    have e0 : ¬ uid < 0 := by omega
    simp only [Table.SwitchReady, e0, if_false, if_pos ((seat t._1p e0).mpr h1)]
  · intro h0 h1 h2
    have e0 : ¬ uid < 0 := by omega
    have n1 : ¬ uid = GetUid nilUid t._1p := fun h => h1 ((seat t._1p e0).mp h)
    simp only [Table.SwitchReady, e0, if_false, if_neg n1, if_pos ((seat t._2p e0).mpr h2)]
  · rintro (h | ⟨h1, h2⟩)
    · simp only [Table.SwitchReady, h, if_true]
    · by_cases e0 : uid < 0
      · simp only [Table.SwitchReady, e0, if_true]
      · have n1 : ¬ uid = GetUid nilUid t._1p := fun h => h1 ((seat t._1p e0).mp h)
        have n2 : ¬ uid = GetUid nilUid t._2p := fun h => h2 ((seat t._2p e0).mp h)
        simp only [Table.SwitchReady, e0, if_false, if_neg n1, if_neg n2]
  · by_cases e0 : uid < 0
    · simp only [Table.SwitchReady, e0, if_true]
    · by_cases e1 : uid = GetUid nilUid t._1p
      · simp only [Table.SwitchReady, e0, if_false, if_pos e1, Bool.not_not]
      · by_cases e2 : uid = GetUid nilUid t._2p
        · simp only [Table.SwitchReady, e0, if_false, if_neg e1, if_pos e2, Bool.not_not]
        · simp only [Table.SwitchReady, e0, if_false, if_neg e1, if_neg e2]

/-- A table with both seats taken where user 8 of seat 2 switches: with the
sentinel -1 the flag of seat 2 is negated and a second call restores the
table. -/
theorem C14_SwitchReady_witness :
    ((-1 : Int) < 0) ∧
    (exampleSeatedTable.SwitchReady (-1) 8 =
      { exampleSeatedTable with ready2p := !exampleSeatedTable.ready2p }) ∧
    ((exampleSeatedTable.SwitchReady (-1) 8).SwitchReady (-1) 8 = exampleSeatedTable) :=
  ⟨by decide,
    (C14_SwitchReady (-1) (by decide) exampleSeatedTable 8).2.1 (by decide) (by decide)
      ⟨⟨8⟩, rfl, rfl⟩,
    (C14_SwitchReady (-1) (by decide) exampleSeatedTable 8).2.2.2⟩

/-- C19: with the uid of an empty seat a negative sentinel, in every table
reached from `newTable(...)` by `Join`, `JoinOB`, `Quit`, `SwitchReady`,
`Start`, `Stop`, `ResetTable` and `QuitAllObs` calls a readiness flag is true
only if its seat is occupied, and `ShouldStart()` true implies `IsFull()`
true. -/
theorem C19_ready_implies_seated (nilUid : Int) (hn : nilUid < 0)
    (id : Int) (title host : String) (bet now : Int) (calls : List TableCall) :
    ((runTableCalls nilUid (newTable id title host bet now) calls).ready1p = true →
      (runTableCalls nilUid (newTable id title host bet now) calls)._1p ≠ none) ∧
    ((runTableCalls nilUid (newTable id title host bet now) calls).ready2p = true →
      (runTableCalls nilUid (newTable id title host bet now) calls)._2p ≠ none) ∧
    ((runTableCalls nilUid (newTable id title host bet now) calls).ShouldStart = true →
      (runTableCalls nilUid (newTable id title host bet now) calls).IsFull = true) := by
  have h0 : ReadyInv (newTable id title host bet now) :=
    ⟨fun hh => by simp [newTable] at hh, fun hh => by simp [newTable] at hh⟩
  obtain ⟨h1, h2⟩ := ReadyInv_runTableCalls nilUid hn calls _ h0
  refine ⟨fun hr => ?_, fun hr => ?_, fun hs => ?_⟩
  · have := h1 hr
    intro hnone; rw [hnone] at this; simp at this
  · have := h2 hr
    intro hnone; rw [hnone] at this; simp at this
  · simp only [Table.ShouldStart, Bool.and_eq_true] at hs
    simp only [Table.IsFull, Bool.and_eq_true]
    exact ⟨h1 hs.1, h2 hs.2⟩

/-- Two users join a fresh table and both switch to ready: with the sentinel
-1 the table should start and is full. -/
theorem C19_ready_implies_seated_witness :
    ((-1 : Int) < 0) ∧
    (runTableCalls (-1) (newTable 1 "t" "h:1" 0 100)
      [.Join ⟨7⟩, .Join ⟨8⟩, .SwitchReady 7, .SwitchReady 8]).ShouldStart = true ∧
    (runTableCalls (-1) (newTable 1 "t" "h:1" 0 100)
      [.Join ⟨7⟩, .Join ⟨8⟩, .SwitchReady 7, .SwitchReady 8]).IsFull = true :=
  ⟨by decide, by decide,
    (C19_ready_implies_seated (-1) (by decide) 1 "t" "h:1" 0 100
      [.Join ⟨7⟩, .Join ⟨8⟩, .SwitchReady 7, .SwitchReady 8]).2.2 (by decide)⟩

/-! ## The expiry scan -/

/-- The loop of the scan over entries with distinct keys and valid pointers
ends without fault; afterwards an id whose entry points to an expired table
maps to that pointer, and every other id maps to what it mapped to before. -/
theorem expireScan_spec (heap : List Table) (now : Int) :
    ∀ (entries : List (Sigma fun _ : Int => Ptr)) (expires : IdMap),
      entries.NodupKeys → (∀ e ∈ entries, e.2 < heap.length) →
      ∃ ex, expireScan heap now entries expires = .ok ex ∧
        ∀ id : Int, ex.lookup id =
          (entries.dlookup id).elim (expires.lookup id)
            (fun p => if (heap[p]?.map fun t => t.Expire now) = some true then some p
                      else expires.lookup id) := by
  intro entries
  induction entries with
  | nil => intro expires _ _; exact ⟨expires, rfl, fun id => by simp⟩
  | cons e rest ih =>
    intro expires hnd hval
    obtain ⟨tid, p⟩ := e
    have hp : p < heap.length := hval ⟨tid, p⟩ (List.mem_cons_self _ _)
    have hnd2 := List.nodupKeys_cons.mp hnd
    obtain ⟨ex, hex, hlook⟩ := ih (if (heap[p]).Expire now then expires.insert tid p else expires)
      hnd2.2 (fun e he => hval e (List.mem_cons_of_mem _ he))
    refine ⟨ex, ?_, ?_⟩
    · simp only [expireScan, List.getElem?_eq_getElem hp]
      exact hex
    · intro id
      rw [hlook id]
      by_cases hid : id = tid
      · subst hid
        have hnone : rest.dlookup id = none := List.dlookup_eq_none.mpr hnd2.1
        simp only [hnone, Option.elim, List.dlookup_cons_eq, List.getElem?_eq_getElem hp,
          Option.map_some', Option.some.injEq]
        by_cases hx : (heap[p]).Expire now = true
        · simp [hx, AList.lookup_insert]
        · simp [hx]
      · have hne : tid ≠ id := fun h => hid h.symm
        rw [List.dlookup_cons_ne _ _ hid]
        have hsame : (if (heap[p]).Expire now then expires.insert tid p else expires).lookup id
            = expires.lookup id := by
          by_cases hx : (heap[p]).Expire now = true
          · simp [hx, AList.lookup_insert_ne hid]
          · simp [hx]
        rw [hsame]

/-- C16: in a registry whose id map holds addresses of table objects, one
pass of the expiry scan at time `now` ends without fault and leaves the table
objects, the id map and the ordered index unchanged; afterwards the snapshot
maps every id whose live table expires at `now` to the pointer of that live
table, maps every other id to what it mapped to before, and keeps every key
it had. -/
theorem C16_findExpires (ts : Tables) (now : Int) (h : HeapInv ts) :
    ∃ ts1, findExpires ts now = .ok ts1 ∧
      ts1.heap = ts.heap ∧ ts1.Tables = ts.Tables ∧ ts1.sortedTableId = ts.sortedTableId ∧
      (∀ (id : Int) (p : Ptr) (t : Table), ts.Tables.lookup id = some p → ts.deref p = some t →
        t.Expire now = true → ts1.expires.lookup id = some p) ∧
      (∀ id : Int, (∀ t, ts.tableAt id = some t → t.Expire now = false) →
        ts1.expires.lookup id = ts.expires.lookup id) ∧
      (∀ id : Int, id ∈ ts.expires → id ∈ ts1.expires) := by
  have hval : ∀ e ∈ ts.Tables.entries, e.2 < ts.heap.length := by
    intro e he
    obtain ⟨id, p⟩ := e
    exact h id p (AList.mem_lookup_iff.mpr he)
  obtain ⟨ex, hex, hlook⟩ := expireScan_spec ts.heap now ts.Tables.entries ts.expires
    ts.Tables.nodupKeys hval
  have hA : ∀ (id : Int) (p : Ptr) (t : Table), ts.Tables.lookup id = some p →
      ts.deref p = some t → t.Expire now = true → ex.lookup id = some p := by
    intro id p t hl hd hx
    have hl2 : ts.Tables.entries.dlookup id = some p := hl
    have hd2 : ts.heap[p]? = some t := hd
    rw [hlook id, hl2]
    simp [hd2, hx]
  have hB : ∀ id : Int, (∀ t, ts.tableAt id = some t → t.Expire now = false) →
      ex.lookup id = ts.expires.lookup id := by
    intro id hno
    rw [hlook id]
    cases hl : ts.Tables.entries.dlookup id with
    | none => rfl
    | some p =>
      have hl2 : ts.Tables.lookup id = some p := hl
      have hp : p < ts.heap.length := h id p hl2
      have ht : ts.tableAt id = some (ts.heap[p]) := by
        simp [Tables.tableAt, hl2, Tables.deref, List.getElem?_eq_getElem hp]
      have := hno _ ht
      simp [List.getElem?_eq_getElem hp, this]
  refine ⟨{ ts with expires := ex }, ?_, rfl, rfl, rfl, hA, hB, ?_⟩
  · simp only [findExpires, hex]
  · intro id hin
    show id ∈ ex
    rw [← AList.lookup_isSome] at hin ⊢
    by_cases hx : ∃ p t, ts.Tables.lookup id = some p ∧ ts.deref p = some t ∧ t.Expire now = true
    · obtain ⟨p, t, h1, h2, h3⟩ := hx
      rw [hA id p t h1 h2 h3]; rfl
    · rw [hB id ?_]
      · exact hin
      · intro t ht
        cases hl : ts.Tables.lookup id with
        | none => simp [Tables.tableAt, hl] at ht
        | some p =>
          have hd : ts.deref p = some t := by simpa [Tables.tableAt, hl] using ht
          cases hE : t.Expire now with
          | false => rfl
          | true => exact absurd ⟨p, t, hl, hd, hE⟩ hx

/-- The registry with one empty table created at time 1000, scanned at time
1011: the scan ends without fault, leaves the id map as it was and records
the table, whose pointer is 0, under its id 1. -/
theorem C16_findExpires_witness :
    HeapInv (exampleRegistry 1) ∧
    ∃ ts1, findExpires (exampleRegistry 1) 1011 = .ok ts1 ∧
      ts1.Tables = (exampleRegistry 1).Tables ∧ ts1.expires.lookup 1 = some 0 :=
  ⟨HeapInv_runCalls _ _ HeapInv_NewTables,
    (C16_findExpires (exampleRegistry 1) 1011 (HeapInv_runCalls _ _ HeapInv_NewTables)).imp
      fun _ hh => ⟨hh.1, hh.2.2.1, hh.2.2.2.2.1 1 0 (newTable 1 "t" "10.0.0.1:9000" 0 1000)
        (by decide) (by decide) (by decide)⟩⟩

theorem expireScan_keys (heap : List Table) (now : Int) :
    ∀ (entries : List (Sigma fun _ : Int => Ptr)) (expires ex : IdMap),
      expireScan heap now entries expires = .ok ex →
      ∀ id : Int, id ∈ ex → id ∈ expires ∨ id ∈ entries.keys := by
  intro entries
  induction entries with
  | nil =>
    intro expires ex h id hin
    simp only [expireScan, Except.ok.injEq] at h
    subst h
    exact Or.inl hin
  | cons e rest ih =>
    intro expires ex h id hin
    obtain ⟨tid, p⟩ := e
    simp only [expireScan] at h
    cases hp : heap[p]? with
    | none => rw [hp] at h; cases h
    | some t =>
      rw [hp] at h
      rcases ih _ ex h id hin with h1 | h1
      · by_cases hx : t.Expire now = true
        · simp only [hx, if_true, AList.mem_insert] at h1
          rcases h1 with h2 | h2
          · exact Or.inr (by simp [List.keys, h2])
          · exact Or.inl h2
        · simp only [hx] at h1
          exact Or.inl h1
      · exact Or.inr (by
          simp only [List.keys, List.map_cons, List.mem_cons] at h1 ⊢
          exact Or.inr h1)

theorem ExpiredInv_ReleaseExpireTable (ts : Tables) (tid : Int) (h : ExpiredInv ts) :
    ExpiredInv (ts.ReleaseExpireTable tid) := by
  intro id hin
  simp only [Tables.ReleaseExpireTable, AList.mem_erase] at hin ⊢
  exact ⟨hin.1, h id hin.2⟩

theorem ExpiredInv_releaseExpiresLoop :
    ∀ (ids : List Int) (ts : Tables) (log : List Release) (r : Tables × List Release),
      ExpiredInv ts → releaseExpiresLoop ids ts log = .ok r → ExpiredInv r.1 := by
  intro ids
  induction ids with
  | nil =>
    intro ts log r h hr
    simp only [releaseExpiresLoop, Except.ok.injEq] at hr
    subst hr
    exact h
  | cons tid rest ih =>
    intro ts log r h hr
    simp only [releaseExpiresLoop, releaseExpiresBody] at hr
    cases hg : ts.GetTableById tid with
    | none =>
      simp only [hg] at hr
      exact ih ts log r h hr
    | some tt =>
      cases hd : ts.deref tt with
      | none => simp only [hg, hd] at hr; cases hr
      | some t =>
        simp only [hg, hd] at hr
        exact ih _ _ r (ExpiredInv_ReleaseExpireTable ts tid h) hr

/-- Every step of the registry other than `DelTable` keeps the keys of the
expired snapshot among the keys of the id map. -/
theorem ExpiredInv_apply (s r : Tables × List Release) (c : RegistryStep)
    (hc : ∀ id, c ≠ .DelTable id) (h : ExpiredInv s.1) (hr : c.apply s = .ok r) :
    ExpiredInv r.1 := by
  cases c with
  | NewTable id title host bet now =>
    simp only [RegistryStep.apply, Except.ok.injEq] at hr
    subst hr
    by_cases hx : (s.1.Tables.lookup id).isSome = true
    · simpa [Tables.NewTable, hx] using h
    · intro i hin
      simp only [Tables.NewTable, hx] at hin ⊢
      exact (AList.mem_insert _).mpr (Or.inr (h i hin))
  | DelTable id => exact absurd rfl (hc id)
  | JoinTable id u isOb =>
    simp only [RegistryStep.apply, Tables.JoinTable] at hr
    cases hl : s.1.Tables.lookup id with
    | none =>
      simp only [hl, Except.ok.injEq] at hr
      subst hr
      exact h
    | some p =>
      cases hd : s.1.deref p with
      | none => simp only [hl, hd] at hr; cases hr
      | some t =>
        cases isOb with
        | true =>
          simp only [hl, hd, if_true, Except.ok.injEq] at hr
          subst hr
          exact h
        | false =>
          simp only [hl, hd, Bool.false_eq_true, if_false, Except.ok.injEq] at hr
          subst hr
          exact h
  | ReleaseExpireTable tid =>
    simp only [RegistryStep.apply, Except.ok.injEq] at hr
    subst hr
    exact ExpiredInv_ReleaseExpireTable s.1 tid h
  | findExpires now =>
    simp only [RegistryStep.apply, findExpires] at hr
    cases hs : expireScan s.1.heap now s.1.Tables.entries s.1.expires with
    | error e => rw [hs] at hr; cases hr
    | ok ex =>
      rw [hs] at hr
      simp only [Except.ok.injEq] at hr
      subst hr
      intro id hin
      rcases expireScan_keys _ _ _ _ _ hs id hin with h1 | h1
      · exact h id h1
      · exact h1
  | releaseExpires =>
    exact ExpiredInv_releaseExpiresLoop _ _ _ r h hr
/-! ## The expired snapshot against the id map -/

/-- C11 (refuted for the code): after `NewTable(1)` at time 0, a scan at time
11 and `DelTable(1)`, the run has not faulted, id 1 is no key of the id map
and not in the ordered index, but the expired snapshot still maps id 1 to the
deleted table: `DelTable` does not remove the id from the snapshot. -/
theorem C11_DelTable_keeps_expired_entry :
    (runSteps (NewTables, []) staleEntrySteps).map
        (fun s => (s.1.Tables.lookup 1, s.1.sortedTableId.GetAll, s.1.expires.lookup 1))
      = .ok (none, [], some 0) := by
  decide

/-- C20 (refuted for the code): after `NewTable(1)` at time 0, a scan at time
11, `DelTable(1)` and a second `NewTable(1)` at time 12, one iteration of the
maintenance loop releases exactly one table, the one at address 1 created at
time 12, which does not expire at time 12, while the snapshot recorded
address 0 under id 1; afterwards id 1 is no key of the id map. -/
theorem C20_release_of_fresh_table :
    ((runSteps (NewTables, []) staleReleaseSteps).map
        (fun s => (s.2, s.1.Tables.lookup 1, (s.1.deref 1).map fun t => (t, t.Expire 12)))
      = .ok ([{ tid := 1, released := 1, recorded := some 0 }], none,
          some (newTable 1 "t2" "10.0.0.1:9000" 0 12, false))) := by
  decide

/-! ## The countdown -/

theorem countdownStep_tick (t : Table) (h1 : 1 < t.remainedSeconds)
    (hmax : t.remainedSeconds ≤ maxInt) (hroom : t.RemainedSecondsChan.length < chanCap) :
    t.countdownStep = some ({ t with
      remainedSeconds := t.remainedSeconds - 1
      RemainedSecondsChan := t.RemainedSecondsChan ++ [t.remainedSeconds - 1] }, false) := by
  have hw : wrapInt (t.remainedSeconds - 1) = t.remainedSeconds - 1 := by
    apply wrapInt_of_range
    · have : minInt = -(2 ^ 63) := rfl
      omega
    · omega
  have hpos : ¬ t.remainedSeconds - 1 ≤ 0 := by omega
  simp only [Table.countdownStep, hw, hpos, if_false, chanSend, hroom, if_true]

theorem countdownStep_full (t : Table) (h1 : 1 < t.remainedSeconds)
    (hmax : t.remainedSeconds ≤ maxInt) (hfull : chanCap ≤ t.RemainedSecondsChan.length) :
    t.countdownStep = none := by
  have hw : wrapInt (t.remainedSeconds - 1) = t.remainedSeconds - 1 := by
    apply wrapInt_of_range
    · have : minInt = -(2 ^ 63) := rfl
      omega
    · omega
  have hpos : ¬ t.remainedSeconds - 1 ≤ 0 := by omega
  have hno : ¬ t.RemainedSecondsChan.length < chanCap := by omega
  simp only [Table.countdownStep, hw, hpos, if_false, chanSend, hno]

theorem countdownStep_last (t : Table) (h1 : t.remainedSeconds = 1)
    (hroom : t.GameoverChan.length < chanCap) :
    t.countdownStep = some ({ t with
      remainedSeconds := 0
      GameoverChan := t.GameoverChan ++ [gameOverStatus.GameoverNormal] }, true) := by
  have hw : wrapInt (t.remainedSeconds - 1) = 0 := by rw [h1]; decide
  simp only [Table.countdownStep, hw, le_refl, if_true, chanSend, hroom]

theorem countdownStep_last_full (t : Table) (h1 : t.remainedSeconds = 1)
    (hfull : chanCap ≤ t.GameoverChan.length) : t.countdownStep = none := by
  have hw : wrapInt (t.remainedSeconds - 1) = 0 := by rw [h1]; decide
  have hno : ¬ t.GameoverChan.length < chanCap := by omega
  simp only [Table.countdownStep, hw, le_refl, if_true, chanSend, hno, if_false]

theorem countdownValues_succ (r j : Nat) :
    countdownValues (r + 1) (j + 1) = (r : Int) :: countdownValues r j := by
  simp only [countdownValues]
  rw [List.range_succ_eq_map, List.map_cons, List.map_map]
  refine congrArg₂ _ ?_ ?_
  · push_cast; ring
  · apply List.map_congr_left
    intro i _
    simp only [Function.comp]
    push_cast; ring

theorem countdownValues_snoc (r j : Nat) :
    countdownValues r (j + 1) = countdownValues r j ++ [(r : Int) - 1 - (j : Int)] := by
  simp only [countdownValues, List.range_succ, List.map_append, List.map_cons, List.map_nil]

/-- One round of `UpdateTimer` on a running ticker with `r + 1` seconds
left, whatever the fuel: the run is blocked in this round; or `r = 0` and
the run returns in this round with one more game-over signal sent; or
`r > 0` and the run goes on from a table with `r` seconds left and the value
`r` sent on the tick channel. -/
theorem UpdateTimer_round (rc : Receivers) (k : Nat) (t : Table) (gt : List Int)
    (go : List gameOverStatus) (r : Nat) (hrem : t.remainedSeconds = ((r + 1 : Nat) : Int))
    (hmax : ((r + 1 : Nat) : Int) ≤ maxInt) (hrun : t.timer.paused = false) :
    (∀ fuel, (Table.UpdateTimer rc (fuel + 1) k t gt go).status = .blocked) ∨
    (r = 0 ∧ ∃ res : Countdown, (∀ fuel, Table.UpdateTimer rc (fuel + 1) k t gt go = res) ∧
      res.status = .finished ∧ res.ticks = k + 1 ∧
      res.gotTicks ++ res.table.RemainedSecondsChan = gt ++ t.RemainedSecondsChan ∧
      res.gotOvers ++ res.table.GameoverChan =
        go ++ t.GameoverChan ++ [gameOverStatus.GameoverNormal] ∧
      res.table.remainedSeconds = 0) ∨
    (r ≠ 0 ∧ ∃ (t2 : Table) (gt2 : List Int) (go2 : List gameOverStatus),
      (∀ fuel, Table.UpdateTimer rc (fuel + 1) k t gt go =
        Table.UpdateTimer rc fuel (k + 1) t2 gt2 go2) ∧
      t2.remainedSeconds = (r : Int) ∧ t2.timer.paused = false ∧
      gt2 ++ t2.RemainedSecondsChan = gt ++ t.RemainedSecondsChan ++ [(r : Int)] ∧
      go2 ++ t2.GameoverChan = go ++ t.GameoverChan) := by
  have hunf : ∀ fuel, Table.UpdateTimer rc (fuel + 1) k t gt go =
      (match Table.countdownStep { t with
          RemainedSecondsChan := t.RemainedSecondsChan.drop (rc.tick k)
          GameoverChan := t.GameoverChan.drop (rc.over k) } with
      | some (t2, true) =>
        { status := .finished, table := t2, ticks := k + 1,
          gotTicks := gt ++ t.RemainedSecondsChan.take (rc.tick k),
          gotOvers := go ++ t.GameoverChan.take (rc.over k) }
      | some (t2, false) => Table.UpdateTimer rc fuel (k + 1) t2
          (gt ++ t.RemainedSecondsChan.take (rc.tick k)) (go ++ t.GameoverChan.take (rc.over k))
      | none =>
        if wrapInt (t.remainedSeconds - 1) ≤ 0 then
          match chanSend ((t.GameoverChan.drop (rc.over k)).drop (rc.lateOver k))
              gameOverStatus.GameoverNormal with
          | none =>
            { status := .blocked
              table := { t with
                RemainedSecondsChan := t.RemainedSecondsChan.drop (rc.tick k)
                GameoverChan := (t.GameoverChan.drop (rc.over k)).drop (rc.lateOver k)
                remainedSeconds := wrapInt (t.remainedSeconds - 1) }
              ticks := k + 1
              gotTicks := gt ++ t.RemainedSecondsChan.take (rc.tick k)
              gotOvers := go ++ t.GameoverChan.take (rc.over k) ++
                (t.GameoverChan.drop (rc.over k)).take (rc.lateOver k) }
          | some ch =>
            { status := .finished
              table := { t with
                RemainedSecondsChan := t.RemainedSecondsChan.drop (rc.tick k)
                GameoverChan := ch
                remainedSeconds := wrapInt (t.remainedSeconds - 1) }
              ticks := k + 1
              gotTicks := gt ++ t.RemainedSecondsChan.take (rc.tick k)
              gotOvers := go ++ t.GameoverChan.take (rc.over k) ++
                (t.GameoverChan.drop (rc.over k)).take (rc.lateOver k) }
        else
          match chanSend ((t.RemainedSecondsChan.drop (rc.tick k)).drop (rc.lateTick k))
              (wrapInt (t.remainedSeconds - 1)) with
          | none =>
            { status := .blocked
              table := { t with
                RemainedSecondsChan := (t.RemainedSecondsChan.drop (rc.tick k)).drop (rc.lateTick k)
                GameoverChan := t.GameoverChan.drop (rc.over k)
                remainedSeconds := wrapInt (t.remainedSeconds - 1) }
              ticks := k + 1
              gotTicks := gt ++ t.RemainedSecondsChan.take (rc.tick k) ++
                (t.RemainedSecondsChan.drop (rc.tick k)).take (rc.lateTick k)
              gotOvers := go ++ t.GameoverChan.take (rc.over k) }
          | some ch =>
            Table.UpdateTimer rc fuel (k + 1)
              { t with
                RemainedSecondsChan := ch
                GameoverChan := t.GameoverChan.drop (rc.over k)
                remainedSeconds := wrapInt (t.remainedSeconds - 1) }
              (gt ++ t.RemainedSecondsChan.take (rc.tick k) ++
                (t.RemainedSecondsChan.drop (rc.tick k)).take (rc.lateTick k))
              (go ++ t.GameoverChan.take (rc.over k))) := by
    intro fuel
    simp only [Table.UpdateTimer, hrun, Bool.false_eq_true, if_false]
  have hT1rem : ({ t with
      RemainedSecondsChan := t.RemainedSecondsChan.drop (rc.tick k)
      GameoverChan := t.GameoverChan.drop (rc.over k) } : Table).remainedSeconds
        = ((r + 1 : Nat) : Int) := hrem
  have htk : ∀ (n : Nat) (l : List Int) (a : List Int), a ++ l.take n ++ l.drop n = a ++ l := by
    intro n l a; rw [List.append_assoc, List.take_append_drop]
  have hto : ∀ (n : Nat) (l : List gameOverStatus) (a : List gameOverStatus),
      a ++ l.take n ++ l.drop n = a ++ l := by
    intro n l a; rw [List.append_assoc, List.take_append_drop]
  by_cases hr0 : r = 0
  · subst hr0
    have hone : t.remainedSeconds = 1 := by rw [hrem]; rfl
    have hw : wrapInt (t.remainedSeconds - 1) = 0 := by rw [hone]; decide
    by_cases hroom : (t.GameoverChan.drop (rc.over k)).length < chanCap
    · right; left
      refine ⟨rfl,
        { status := .finished
          table := { t with
            RemainedSecondsChan := t.RemainedSecondsChan.drop (rc.tick k)
            GameoverChan := t.GameoverChan.drop (rc.over k) ++ [gameOverStatus.GameoverNormal]
            remainedSeconds := 0 }
          ticks := k + 1
          gotTicks := gt ++ t.RemainedSecondsChan.take (rc.tick k)
          gotOvers := go ++ t.GameoverChan.take (rc.over k) }, fun fuel => ?_, ?_⟩
      · have hstep := countdownStep_last ({ t with
          RemainedSecondsChan := t.RemainedSecondsChan.drop (rc.tick k)
          GameoverChan := t.GameoverChan.drop (rc.over k) } : Table) hone hroom
        rw [hunf fuel, hstep]
      · refine ⟨rfl, rfl, htk _ _ _, ?_, rfl⟩
        show go ++ t.GameoverChan.take (rc.over k) ++
          (t.GameoverChan.drop (rc.over k) ++ [gameOverStatus.GameoverNormal]) = _
        rw [← List.append_assoc, hto]
    · have hnone := countdownStep_last_full ({ t with
          RemainedSecondsChan := t.RemainedSecondsChan.drop (rc.tick k)
          GameoverChan := t.GameoverChan.drop (rc.over k) } : Table) hone (by
            show chanCap ≤ (t.GameoverChan.drop (rc.over k)).length
            omega)
      by_cases hlate : ((t.GameoverChan.drop (rc.over k)).drop (rc.lateOver k)).length < chanCap
      · right; left
        refine ⟨rfl,
          { status := .finished
            table := { t with
              RemainedSecondsChan := t.RemainedSecondsChan.drop (rc.tick k)
              GameoverChan := (t.GameoverChan.drop (rc.over k)).drop (rc.lateOver k) ++
                [gameOverStatus.GameoverNormal]
              remainedSeconds := 0 }
            ticks := k + 1
            gotTicks := gt ++ t.RemainedSecondsChan.take (rc.tick k)
            gotOvers := go ++ t.GameoverChan.take (rc.over k) ++
              (t.GameoverChan.drop (rc.over k)).take (rc.lateOver k) }, fun fuel => ?_, ?_⟩
        · rw [hunf fuel, hnone]
          simp only [hw, le_refl, if_true, chanSend, hlate]
        · refine ⟨rfl, rfl, htk _ _ _, ?_, rfl⟩
          show go ++ t.GameoverChan.take (rc.over k) ++
            (t.GameoverChan.drop (rc.over k)).take (rc.lateOver k) ++
            ((t.GameoverChan.drop (rc.over k)).drop (rc.lateOver k) ++
              [gameOverStatus.GameoverNormal]) = _
          rw [← List.append_assoc, hto, hto]
      · left
        intro fuel
        rw [hunf fuel, hnone]
        simp only [hw, le_refl, if_true, chanSend, hlate, if_false]
  · have hgt : 1 < t.remainedSeconds := by rw [hrem]; push_cast; omega
    have hmax1 : t.remainedSeconds ≤ maxInt := by rw [hrem]; exact hmax
    have hval : t.remainedSeconds - 1 = (r : Int) := by rw [hrem]; push_cast; ring
    have hw : wrapInt (t.remainedSeconds - 1) = (r : Int) := by
      rw [hval]
      apply wrapInt_of_range
      · have : minInt = -(2 ^ 63) := rfl
        omega
      · push_cast at hmax; omega
    have hpos : ¬ ((r : Int) ≤ 0) := by omega
    by_cases hroom : (t.RemainedSecondsChan.drop (rc.tick k)).length < chanCap
    · right; right
      refine ⟨hr0,
        { t with
          RemainedSecondsChan := t.RemainedSecondsChan.drop (rc.tick k) ++ [t.remainedSeconds - 1]
          GameoverChan := t.GameoverChan.drop (rc.over k)
          remainedSeconds := t.remainedSeconds - 1 },
        gt ++ t.RemainedSecondsChan.take (rc.tick k),
        go ++ t.GameoverChan.take (rc.over k), fun fuel => ?_, ?_⟩
      · have hstep := countdownStep_tick ({ t with
          RemainedSecondsChan := t.RemainedSecondsChan.drop (rc.tick k)
          GameoverChan := t.GameoverChan.drop (rc.over k) } : Table) hgt hmax1 hroom
        rw [hunf fuel, hstep]
      · refine ⟨hval, hrun, ?_, hto _ _ _⟩
        show gt ++ t.RemainedSecondsChan.take (rc.tick k) ++
          (t.RemainedSecondsChan.drop (rc.tick k) ++ [t.remainedSeconds - 1]) = _
        rw [← List.append_assoc, htk, hval]
    · have hnone := countdownStep_full ({ t with
          RemainedSecondsChan := t.RemainedSecondsChan.drop (rc.tick k)
          GameoverChan := t.GameoverChan.drop (rc.over k) } : Table) hgt hmax1 (by
            show chanCap ≤ (t.RemainedSecondsChan.drop (rc.tick k)).length
            omega)
      by_cases hlate :
          ((t.RemainedSecondsChan.drop (rc.tick k)).drop (rc.lateTick k)).length < chanCap
      · right; right
        refine ⟨hr0,
          { t with
            RemainedSecondsChan :=
              (t.RemainedSecondsChan.drop (rc.tick k)).drop (rc.lateTick k) ++ [(r : Int)]
            GameoverChan := t.GameoverChan.drop (rc.over k)
            remainedSeconds := (r : Int) },
          gt ++ t.RemainedSecondsChan.take (rc.tick k) ++
            (t.RemainedSecondsChan.drop (rc.tick k)).take (rc.lateTick k),
          go ++ t.GameoverChan.take (rc.over k), fun fuel => ?_, ?_⟩
        · rw [hunf fuel, hnone]
          simp only [hw, hpos, if_false, chanSend, hlate, if_true]
        · refine ⟨rfl, hrun, ?_, hto _ _ _⟩
          show gt ++ t.RemainedSecondsChan.take (rc.tick k) ++
            (t.RemainedSecondsChan.drop (rc.tick k)).take (rc.lateTick k) ++
            ((t.RemainedSecondsChan.drop (rc.tick k)).drop (rc.lateTick k) ++ [(r : Int)]) = _
          rw [← List.append_assoc, htk, htk]
      · left
        intro fuel
        rw [hunf fuel, hnone]
        simp only [hw, hpos, if_false, chanSend, hlate]

/-- A run of `UpdateTimer` from `r >= 1` remaining seconds on a running
ticker that is never blocked for ever: it returns after `r` more ticks; the
tick channel has carried `r-1, ..., 1` and the game-over channel one normal
signal, after what they carried before. -/
theorem UpdateTimer_run (rc : Receivers) :
    ∀ (r fuel k : Nat) (t : Table) (gt : List Int) (go : List gameOverStatus),
      1 ≤ r → (r : Int) ≤ maxInt → t.remainedSeconds = (r : Int) → t.timer.paused = false →
      r ≤ fuel →
      (Table.UpdateTimer rc fuel k t gt go).status ≠ .blocked →
      (Table.UpdateTimer rc fuel k t gt go).status = .finished ∧
      (Table.UpdateTimer rc fuel k t gt go).ticks = k + r ∧
      (Table.UpdateTimer rc fuel k t gt go).gotTicks ++
          (Table.UpdateTimer rc fuel k t gt go).table.RemainedSecondsChan =
        gt ++ t.RemainedSecondsChan ++ countdownValues r (r - 1) ∧
      (Table.UpdateTimer rc fuel k t gt go).gotOvers ++
          (Table.UpdateTimer rc fuel k t gt go).table.GameoverChan =
        go ++ t.GameoverChan ++ [gameOverStatus.GameoverNormal] ∧
      (Table.UpdateTimer rc fuel k t gt go).table.remainedSeconds = 0 := by
  intro r
  induction r with
  | zero => intro fuel k t gt go h1; omega
  | succ r ih =>
    intro fuel k t gt go _ hmax hrem hrun hfuel hnb
    obtain ⟨f, rfl⟩ : ∃ f, fuel = f + 1 := ⟨fuel - 1, by omega⟩
    rcases UpdateTimer_round rc k t gt go r hrem hmax hrun with hb | ⟨hr0, res, hres, a1, a2, a3, a4, a5⟩ |
      ⟨hr0, t2, gt2, go2, hnext, b1, b2, b3, b4⟩
    · exact absurd (hb f) hnb
    · subst hr0
      rw [hres f]
      refine ⟨a1, a2, ?_, a4, a5⟩
      rw [a3]
      simp [countdownValues]
    · rw [hnext f] at hnb ⊢
      obtain ⟨c1, c2, c3, c4, c5⟩ := ih f (k + 1) t2 gt2 go2 (by omega)
        (by push_cast at hmax; omega) b1 b2 (by omega) hnb
      refine ⟨c1, by rw [c2]; omega, ?_, by rw [c4, b4], c5⟩
      rw [c3, b3]
      obtain ⟨m, rfl⟩ : ∃ m, r = m + 1 := ⟨r - 1, by omega⟩
      simp only [Nat.add_sub_cancel, countdownValues_succ (m + 1) m, List.append_assoc,
        List.singleton_append]

/-- The first `j < r` rounds of a run of `UpdateTimer` that is never blocked
for ever: after `j` ticks the tick channel has carried `r-1, ..., r-j` more
values, the game-over channel nothing more, and `r - j` seconds remain. -/
theorem UpdateTimer_rounds (rc : Receivers) :
    ∀ (j r fuel k : Nat) (t : Table) (gt : List Int) (go : List gameOverStatus),
      j < r → (r : Int) ≤ maxInt → t.remainedSeconds = (r : Int) → t.timer.paused = false →
      r ≤ fuel →
      (Table.UpdateTimer rc fuel k t gt go).status ≠ .blocked →
      (Table.UpdateTimer rc j k t gt go).status = .outOfFuel ∧
      (Table.UpdateTimer rc j k t gt go).ticks = k + j ∧
      (Table.UpdateTimer rc j k t gt go).gotTicks ++
          (Table.UpdateTimer rc j k t gt go).table.RemainedSecondsChan =
        gt ++ t.RemainedSecondsChan ++ countdownValues r j ∧
      (Table.UpdateTimer rc j k t gt go).gotOvers ++
          (Table.UpdateTimer rc j k t gt go).table.GameoverChan = go ++ t.GameoverChan ∧
      (Table.UpdateTimer rc j k t gt go).table.remainedSeconds = (r : Int) - (j : Int) := by
  intro j
  induction j with
  | zero =>
    intro r fuel k t gt go _ _ hrem _ _ _
    simp [Table.UpdateTimer, countdownValues, hrem]
  | succ j ih =>
    intro r fuel k t gt go hj hmax hrem hrun hfuel hnb
    obtain ⟨r, rfl⟩ : ∃ m, r = m + 1 := ⟨r - 1, by omega⟩
    obtain ⟨f, rfl⟩ : ∃ f, fuel = f + 1 := ⟨fuel - 1, by omega⟩
    rcases UpdateTimer_round rc k t gt go r hrem hmax hrun with hb | ⟨hr0, _⟩ |
      ⟨_, t2, gt2, go2, hnext, b1, b2, b3, b4⟩
    · exact absurd (hb f) hnb
    · omega
    · rw [hnext f] at hnb
      rw [hnext j]
      obtain ⟨c1, c2, c3, c4, c5⟩ := ih r f (k + 1) t2 gt2 go2 (by omega)
        (by push_cast at hmax; omega) b1 b2 (by omega) hnb
      refine ⟨c1, by rw [c2]; omega, ?_, by rw [c4, b4], by rw [c5]; push_cast; ring⟩
      rw [c3, b3, countdownValues_succ, List.append_assoc, List.singleton_append]

/-- C17: for a table with `r >= 1` remaining seconds and a ticker that is
not paused, a run of `UpdateTimer` in which no send waits for ever on a full
channel (so in particular one in which every send finds free capacity)
returns after exactly `r` ticks.  By then the tick channel has carried, after
what it held at the start, the values `r-1, r-2, ..., 1` in that order, and
the game-over channel one `GameoverNormal` signal; `remainedSeconds` is 0.
After `j < r` ticks the tick channel has carried the first `j` of these
values, `r-1, ..., r-j`, the game-over channel nothing, and `r - j` seconds
remain: one value per tick, and no tick value on the last tick.  What a
channel has carried is what the receivers have taken from it followed by
what it still holds. -/
theorem C17_UpdateTimer (rc : Receivers) (r fuel : Nat) (t : Table)
    (h1 : 1 ≤ r) (hmax : (r : Int) ≤ maxInt) (hrem : t.remainedSeconds = (r : Int))
    (hrun : t.timer.paused = false) (hfuel : r ≤ fuel)
    (hfree : (t.UpdateTimer rc fuel 0 [] []).status ≠ .blocked) :
    (t.UpdateTimer rc fuel 0 [] []).status = .finished ∧
    (t.UpdateTimer rc fuel 0 [] []).ticks = r ∧
    (t.UpdateTimer rc fuel 0 [] []).gotTicks ++
        (t.UpdateTimer rc fuel 0 [] []).table.RemainedSecondsChan =
      t.RemainedSecondsChan ++
        ((List.range (r - 1)).map fun i : Nat => (r : Int) - 1 - (i : Int)) ∧
    (t.UpdateTimer rc fuel 0 [] []).gotOvers ++
        (t.UpdateTimer rc fuel 0 [] []).table.GameoverChan =
      t.GameoverChan ++ [gameOverStatus.GameoverNormal] ∧
    (t.UpdateTimer rc fuel 0 [] []).table.remainedSeconds = 0 ∧
    (∀ j : Nat, j < r →
      (t.UpdateTimer rc j 0 [] []).status = .outOfFuel ∧
      (t.UpdateTimer rc j 0 [] []).ticks = j ∧
      (t.UpdateTimer rc j 0 [] []).gotTicks ++
          (t.UpdateTimer rc j 0 [] []).table.RemainedSecondsChan =
        t.RemainedSecondsChan ++ ((List.range j).map fun i : Nat => (r : Int) - 1 - (i : Int)) ∧
      (t.UpdateTimer rc j 0 [] []).gotOvers ++ (t.UpdateTimer rc j 0 [] []).table.GameoverChan =
        t.GameoverChan ∧
      (t.UpdateTimer rc j 0 [] []).table.remainedSeconds = (r : Int) - (j : Int)) := by
  obtain ⟨a1, a2, a3, a4, a5⟩ :=
    UpdateTimer_run rc r fuel 0 t [] [] h1 hmax hrem hrun hfuel hfree
  refine ⟨a1, by rw [a2]; omega, by rw [a3]; rfl, by rw [a4]; rfl, a5, ?_⟩
  intro j hj
  obtain ⟨b1, b2, b3, b4, b5⟩ :=
    UpdateTimer_rounds rc j r fuel 0 t [] [] hj hmax hrem hrun hfuel hfree
  exact ⟨b1, by rw [b2]; omega, by rw [b3]; rfl, by rw [b4]; rfl, b5⟩

set_option maxRecDepth 100000 in
/-- A new table with a started ticker and a receiver that takes one tick
value per tick: the countdown from the default 120 seconds returns after
exactly 120 ticks, with one game-over signal in its channel. -/
theorem C17_UpdateTimer_witness :
    exampleRunningTable.remainedSeconds = 120 ∧ exampleRunningTable.timer.paused = false ∧
    (exampleRunningTable.UpdateTimer exampleReceivers 120 0 [] []).status ≠ .blocked ∧
    (exampleRunningTable.UpdateTimer exampleReceivers 120 0 [] []).status = .finished ∧
    (exampleRunningTable.UpdateTimer exampleReceivers 120 0 [] []).ticks = 120 ∧
    (exampleRunningTable.UpdateTimer exampleReceivers 120 0 [] []).gotOvers ++
        (exampleRunningTable.UpdateTimer exampleReceivers 120 0 [] []).table.GameoverChan =
      [gameOverStatus.GameoverNormal] :=
  ⟨rfl, rfl, by decide,
    (C17_UpdateTimer exampleReceivers 120 120 exampleRunningTable (by decide)
      (by decide) rfl rfl (le_refl _) (by decide)).1,
    (C17_UpdateTimer exampleReceivers 120 120 exampleRunningTable (by decide)
      (by decide) rfl rfl (le_refl _) (by decide)).2.1,
    (C17_UpdateTimer exampleReceivers 120 120 exampleRunningTable (by decide)
      (by decide) rfl rfl (le_refl _) (by decide)).2.2.2.1⟩

/-- A send that waits on the full tick channel goes on once a receiver has
taken values: from 5 seconds and 8 queued values, with receivers that take
three values whenever a send waits, the run returns after 5 ticks and the
channel has carried `4, 3, 2, 1` after the 8 values. -/
theorem UpdateTimer_resumes :
    (exampleFullQueueTable.UpdateTimer lateReceivers 5 0 [] []).status = .finished ∧
    (exampleFullQueueTable.UpdateTimer lateReceivers 5 0 [] []).ticks = 5 ∧
    (exampleFullQueueTable.UpdateTimer lateReceivers 5 0 [] []).gotTicks ++
        (exampleFullQueueTable.UpdateTimer lateReceivers 5 0 [] []).table.RemainedSecondsChan =
      [13, 12, 11, 10, 9, 8, 7, 6, 4, 3, 2, 1] := by
  decide

/-- C18 (refuted as stated): a running table with 5 seconds left whose tick
channel already holds 8 values: the iteration does not complete, the send
blocks with the lock held, and `UpdateTimer` without a receiver stays
blocked in its first round, after the decrement to 4, with nothing pushed
and nothing dropped. -/
theorem C18_full_queue_blocks :
    1 < exampleFullQueueTable.remainedSeconds ∧
    exampleFullQueueTable.RemainedSecondsChan.length = 8 ∧
    exampleFullQueueTable.countdownStep = none ∧
    (exampleFullQueueTable.UpdateTimer noReceivers 5 0 [] []).status = .blocked ∧
    (exampleFullQueueTable.UpdateTimer noReceivers 5 0 [] []).table.remainedSeconds = 4 ∧
    (exampleFullQueueTable.UpdateTimer noReceivers 5 0 [] []).table.RemainedSecondsChan =
      exampleFullQueueTable.RemainedSecondsChan ∧
    (exampleFullQueueTable.UpdateTimer noReceivers 5 0 [] []).gotTicks = [] := by
  decide

/-- C18 (amended): from a state with `remainedSeconds > 1`, one iteration of
the countdown completes when the tick channel holds fewer than 8 values not
yet received: it decrements `remainedSeconds` by one, appends the new value
to the channel, drops nothing, changes nothing else and returns `false`;
when the channel holds 8 values the send blocks and the iteration does not
complete. -/
theorem C18_countdownStep_bounded_queue (t : Table) (h1 : 1 < t.remainedSeconds)
    (hmax : t.remainedSeconds ≤ maxInt) :
    (t.RemainedSecondsChan.length < 8 →
      t.countdownStep = some ({ t with
        remainedSeconds := t.remainedSeconds - 1
        RemainedSecondsChan := t.RemainedSecondsChan ++ [t.remainedSeconds - 1] }, false)) ∧
    (8 ≤ t.RemainedSecondsChan.length → t.countdownStep = none) :=
  ⟨fun h => countdownStep_tick t h1 hmax h, fun h => countdownStep_full t h1 hmax h⟩

/-- A new table with a started ticker, 120 seconds left and an empty tick
channel: one iteration leaves 119 seconds and the value 119 in the channel. -/
theorem C18_countdownStep_bounded_queue_witness :
    1 < exampleRunningTable.remainedSeconds ∧ exampleRunningTable.remainedSeconds ≤ maxInt ∧
    exampleRunningTable.countdownStep = some ({ exampleRunningTable with
      remainedSeconds := 119, RemainedSecondsChan := [119] }, false) :=
  ⟨by decide, by decide,
    (C18_countdownStep_bounded_queue exampleRunningTable (by decide) (by decide)).1 (by decide)⟩

/-! ## The shutdown sequence -/

theorem ShutdownInv_init (pub : Bool) : ShutdownInv (Shutdown.init pub) := by
  refine ⟨?_, ?_, ?_, ?_, ?_, ?_, ?_, ?_, ?_⟩ <;> simp [Shutdown.init, NotifyPc.rank]

theorem ShutdownInv_step (s : Shutdown) (i : ShutdownInput) (h : ShutdownInv s) :
    ShutdownInv (s.step i) := by
  obtain ⟨pc, pub, rel, can, log⟩ := s
  obtain ⟨h1, h2, h3, h4, h5, h6, h7, h8, h9⟩ := h
  simp only at h1 h2 h3 h4 h5 h6 h7 h8 h9
  cases i with
  | signal =>
    cases pc <;> simp only [Shutdown.step] <;>
      first
      | exact ⟨h1, h2, h3, h4, h5, h6, h7, h8, h9⟩
      | (simp only [NotifyPc.rank] at h1 h2 h3 h4 h5 h6 h7 h8 h9
         refine ⟨?_, ?_, ?_, ?_, ?_, ?_, ?_, ?_, ?_⟩ <;> simp_all [NotifyPc.rank])
  | background v =>
    exact ⟨h1, h2, h3, h4, h5, h6, h7, h8, h9⟩
  | notify f n =>
    cases pc with
    | waitSignal => exact ⟨h1, h2, h3, h4, h5, h6, h7, h8, h9⟩
    | setPubServerEnable =>
      simp only [NotifyPc.rank] at h1 h2 h3 h4 h5 h6 h7 h8 h9
      refine ⟨?_, ?_, ?_, ?_, ?_, ?_, ?_, ?_, ?_⟩ <;>
        simp_all [Shutdown.step, NotifyPc.rank]
    | callDeactivateAll =>
      simp only [NotifyPc.rank] at h1 h2 h3 h4 h5 h6 h7 h8 h9
      refine ⟨?_, ?_, ?_, ?_, ?_, ?_, ?_, ?_, ?_⟩ <;>
        simp_all [Shutdown.step, NotifyPc.rank]
    | pollNumOfGS =>
      simp only [NotifyPc.rank] at h1 h2 h3 h4 h5 h6 h7 h8 h9
      by_cases hn : n > 0
      · refine ⟨?_, ?_, ?_, ?_, ?_, ?_, ?_, ?_, ?_⟩ <;>
          simp_all [Shutdown.step, NotifyPc.rank]
      · have hn2 : ¬ (0 < n) := hn
        have hle : n ≤ 0 := by omega
        simp only [Shutdown.step, gt_iff_lt, hn2, if_false]
        refine ⟨?_, ?_, ?_, ?_, ?_, ?_, ?_, ?_, ?_⟩ <;>
          first
          | (simp_all [NotifyPc.rank]; done)
          | exact fun _ => ⟨n, hle, by simp⟩
    | setAllGSReleased =>
      simp only [NotifyPc.rank] at h1 h2 h3 h4 h5 h6 h7 h8 h9
      refine ⟨?_, ?_, ?_, ?_, ?_, ?_, ?_, ?_, ?_⟩ <;>
        simp_all [Shutdown.step, NotifyPc.rank]
    | pollProgCanExit =>
      simp only [NotifyPc.rank] at h1 h2 h3 h4 h5 h6 h7 h8 h9
      cases can <;>
        (refine ⟨?_, ?_, ?_, ?_, ?_, ?_, ?_, ?_, ?_⟩ <;>
          simp_all [Shutdown.step, NotifyPc.rank])
    | exiting =>
      simp only [NotifyPc.rank] at h1 h2 h3 h4 h5 h6 h7 h8 h9
      refine ⟨?_, ?_, ?_, ?_, ?_, ?_, ?_, ?_, ?_⟩ <;>
        simp_all [Shutdown.step, NotifyPc.rank]
    | exited => exact ⟨h1, h2, h3, h4, h5, h6, h7, h8, h9⟩

theorem ShutdownInv_run (inputs : List ShutdownInput) :
    ∀ s : Shutdown, ShutdownInv s → ShutdownInv (s.run inputs) := by
  induction inputs with
  | nil => intro s h; exact h
  | cons i rest ih =>
    intro s h
    exact ih (s.step i) (ShutdownInv_step s i h)

/-- The example shutdown runs to the exit, with the events in the order of
`notify`. -/
theorem exampleShutdown_exits :
    ((Shutdown.init true).run exampleShutdown).pc = .exited ∧
    ((Shutdown.init true).run exampleShutdown).log =
      [.deactivateAll false, .numOfGS 2, .numOfGS 1, .numOfGS 0,
       .readProgCanExit false true, .readProgCanExit true true, .exit 1] := by
  decide

/-- C15: in every state of every execution of the shutdown sequence, whatever
the fleet collaborator answers and whenever the rest of the program writes
`progCanExit`: every call of `DeactivateAll` was made with `pubServerEnable`
already false; `allGSReleased` is true only if a call of `NumOfGS()` has
returned a number `<= 0` before; every read of `progCanExit` was made with
`allGSReleased` already true; and the exit is reached only after
`progCanExit` was read as true. -/
theorem C15_shutdown_order (pubServerEnable : Bool) (inputs : List ShutdownInput) :
    (∀ b, ShutdownEvent.deactivateAll b ∈ ((Shutdown.init pubServerEnable).run inputs).log →
      b = false) ∧
    (((Shutdown.init pubServerEnable).run inputs).allGSReleased = true →
      ∃ n : Int, n ≤ 0 ∧
        ShutdownEvent.numOfGS n ∈ ((Shutdown.init pubServerEnable).run inputs).log) ∧
    (∀ v r, ShutdownEvent.readProgCanExit v r ∈ ((Shutdown.init pubServerEnable).run inputs).log →
      r = true) ∧
    ((((Shutdown.init pubServerEnable).run inputs).pc = .exited ∨
        ∃ c, ShutdownEvent.exit c ∈ ((Shutdown.init pubServerEnable).run inputs).log) →
      ShutdownEvent.readProgCanExit true true ∈
        ((Shutdown.init pubServerEnable).run inputs).log) := by
  obtain ⟨_, _, h3, h4, h5, h6, h7, h8, _⟩ :=
    ShutdownInv_run inputs _ (ShutdownInv_init pubServerEnable)
  refine ⟨h3, fun hr => h4 (by have := h5.mp hr; omega), fun v r hm => (h6 v r hm).1, ?_⟩
  have hx : ((Shutdown.init pubServerEnable).run inputs).pc = .exited →
      ShutdownEvent.readProgCanExit true true ∈
        ((Shutdown.init pubServerEnable).run inputs).log := by
    intro hp
    apply h7
    rw [hp]
    decide
  rintro (hp | ⟨c, hc⟩)
  · exact hx hp
  · exact hx (h8 c hc)

end GoTetris
